import Mathlib

/-!
Verification development for the paper-enrichment engine
(`enrich_with_semantic_scholar.py` driven by `run_enrich.py`).

The Python source is shallowly embedded: dict-typed CSV cells become the
`CellVal` sum type, Python `int(...)`-style parsing becomes `pyIntChars`,
`str.strip()` becomes `pyStrip` (ASCII whitespace), wall-clock seconds become
exact rationals, and the Semantic Scholar API is an explicit function
parameter.  Fallible paths (the record-level `try/except`) are modelled by the
`FetchOutcome.exn` constructor handled totally.
-/

/-- ASCII whitespace as stripped by Python `str.strip()` (for the ASCII
strings this pipeline manipulates). -/
def pyWsChar (c : Char) : Bool :=
  c = ' ' || c = '\t' || c = '\n' || c = '\r' || c = '\x0b' || c = '\x0c'

/-- Strip leading and trailing whitespace from a character list. -/
def charTrim (cs : List Char) : List Char :=
  ((cs.dropWhile pyWsChar).reverse.dropWhile pyWsChar).reverse

/-- Model of Python `s.strip()`. -/
def pyStrip (s : String) : String := ⟨charTrim s.data⟩

/-- The decimal digit character for `d < 10` (as produced by Python `str(int)`). -/
def digitChar : Nat → Char
  | 0 => '0' | 1 => '1' | 2 => '2' | 3 => '3' | 4 => '4'
  | 5 => '5' | 6 => '6' | 7 => '7' | 8 => '8' | _ => '9'

/-- Numeric value of a digit character. -/
def digitVal (c : Char) : Nat := c.toNat - 48

/-- Fuel-driven decimal expansion (structural so that the kernel can
evaluate it inside `decide`). -/
def natCharsAux : Nat → Nat → List Char
  | 0, _ => []
  | fuel + 1, n =>
    if n < 10 then [digitChar n] else natCharsAux fuel (n / 10) ++ [digitChar (n % 10)]

/-- Decimal digit expansion of a natural number, most significant first
(the character sequence produced by Python `str` on a non-negative int). -/
def natChars (n : Nat) : List Char := natCharsAux (n + 1) n

/-- Parse a non-empty all-digit character list as a natural number; `none`
otherwise.  This is the digits part of Python `int(str)` (underscore
grouping and non-ASCII digits are not modelled). -/
def parseDigits (cs : List Char) : Option Nat :=
  if cs = [] then none
  else if cs.all Char.isDigit then some (cs.foldl (fun a c => a * 10 + digitVal c) 0)
  else none

/-- Model of Python `int(str)` on an already-stripped character list: an
optional single sign followed by digits; anything else raises `ValueError`
(modelled as `none`). -/
def pyIntChars (cs : List Char) : Option Int :=
  match cs with
  | [] => none
  | c :: rest =>
    if c = '-' then (parseDigits rest).map (fun n => -(n : Int))
    else if c = '+' then (parseDigits rest).map (fun n => ((n : Nat) : Int))
    else (parseDigits (c :: rest)).map (fun n => ((n : Nat) : Int))

/-- Character sequence of Python `str(int)`. -/
def intChars : Int → List Char
  | Int.ofNat m => natChars m
  | Int.negSucc m => '-' :: natChars (m + 1)

/-- The string the CSV writer emits for an integer `citationCount` value. -/
def citCellStr (n : Int) : String := ⟨intChars n⟩

/-- A CSV/dict cell as the enricher sees it: a string (CSV input), an int
(after in-memory coercion or API merge), or `None` (missing cell). -/
inductive CellVal
  | str (s : String)
  | int (n : Int)
  | null
deriving DecidableEq

/-- The `citationCount` coercion performed both by `_save_progress`
(lines 325-332) and by the `enrich_csv` initialisation pass (lines 394-406):
strings are stripped and parsed with `int(...)` with `0` on failure or
emptiness, `None` coerces to `0`, and ints pass through. -/
def coerceCit : CellVal → Int
  | .str s => (pyIntChars (charTrim s.data)).getD 0
  | .int n => n
  | .null => 0

/-- A source `citationCount` cell on which Python `int(...)` would raise
(after stripping), or a missing/`None` cell. -/
def malformedCit : CellVal → Bool
  | .str s => (pyIntChars (charTrim s.data)).isNone
  | .int _ => false
  | .null => true

/-- A source `citationCount` cell carrying a negative numeric value. -/
def negativeCitSource : CellVal → Bool
  | .str s =>
    match pyIntChars (charTrim s.data) with
    | some k => decide (k < 0)
    | none => false
  | .int n => decide (n < 0)
  | .null => false

-- Digit-expansion correctness lemmas -----------------------------------------

theorem digitVal_digitChar {d : Nat} (h : d < 10) : digitVal (digitChar d) = d := by
  interval_cases d <;> decide

theorem isDigit_digitChar {d : Nat} (h : d < 10) : (digitChar d).isDigit = true := by
  interval_cases d <;> decide

theorem natCharsAux_congr :
    ∀ fuel1 fuel2 n, n < fuel1 → n < fuel2 → natCharsAux fuel1 n = natCharsAux fuel2 n := by
  intro fuel1
  induction fuel1 with
  | zero => intro fuel2 n h1; omega
  | succ f1 ih =>
    intro fuel2 n h1 h2
    cases fuel2 with
    | zero => omega
    | succ f2 =>
      simp only [natCharsAux]
      by_cases h : n < 10
      · simp [h]
      · simp only [h, if_false]
        rw [ih f2 (n / 10) (by omega) (by omega)]

theorem natChars_eq (n : Nat) :
    natChars n = if n < 10 then [digitChar n] else natChars (n / 10) ++ [digitChar (n % 10)] := by
  show natCharsAux (n + 1) n = _
  simp only [natCharsAux]
  by_cases h : n < 10
  · simp [h]
  · simp only [h, if_false]
    rw [natCharsAux_congr n (n / 10 + 1) (n / 10) (by omega) (by omega)]
    rfl

theorem natChars_ne_nil (n : Nat) : natChars n ≠ [] := by
  rw [natChars_eq]
  split <;> simp

theorem natChars_all_digits (n : Nat) : (natChars n).all Char.isDigit = true := by
  induction n using Nat.strong_induction_on with
  | _ n ih =>
    rw [natChars_eq]
    by_cases h : n < 10
    · simp [h, isDigit_digitChar h]
    · simp only [h, if_false, List.all_append, List.all_cons, List.all_nil,
        ih (n / 10) (Nat.div_lt_self (by omega) (by omega)),
        isDigit_digitChar (Nat.mod_lt n (by omega)), Bool.and_self]

theorem natChars_foldl (n : Nat) :
    ∀ a : Nat, (natChars n).foldl (fun a c => a * 10 + digitVal c) a =
      a * 10 ^ (natChars n).length + n := by
  induction n using Nat.strong_induction_on with
  | _ n ih =>
    intro a
    rw [natChars_eq]
    by_cases h : n < 10
    · simp [h, digitVal_digitChar h]
    · simp only [h, if_false, List.foldl_append, List.foldl_cons, List.foldl_nil,
        ih (n / 10) (Nat.div_lt_self (by omega) (by omega)),
        List.length_append, List.length_cons, List.length_nil]

      rw [digitVal_digitChar (Nat.mod_lt n (by omega))]
      rw [pow_succ, ← mul_assoc]
      generalize a * 10 ^ (natChars (n / 10)).length = Q
      omega

theorem parseDigits_natChars (n : Nat) : parseDigits (natChars n) = some n := by
  unfold parseDigits
  rw [if_neg (natChars_ne_nil n), if_pos (natChars_all_digits n)]
  rw [natChars_foldl n 0]
  simp

theorem dropWhile_eq_self_of_none {p : Char → Bool} :
    ∀ cs : List Char, (∀ c ∈ cs, p c = false) → cs.dropWhile p = cs := by
  intro cs h
  cases cs with
  | nil => rfl
  | cons c t =>
    rw [List.dropWhile_cons]
    simp [h c (by simp)]

theorem charTrim_eq_self (cs : List Char) (h : ∀ c ∈ cs, pyWsChar c = false) :
    charTrim cs = cs := by
  unfold charTrim
  rw [dropWhile_eq_self_of_none cs h]
  rw [dropWhile_eq_self_of_none cs.reverse (fun c hc => h c (List.mem_reverse.mp hc))]
  exact List.reverse_reverse cs

theorem pyWsChar_of_digit {c : Char} (h : c.isDigit = true) : pyWsChar c = false := by
  simp only [Char.isDigit] at h
  simp only [pyWsChar]
  have h1 : 48 ≤ c.toNat := by
    have := (decide_eq_true_eq.mp (Bool.and_elim_left h))
    exact this
  simp only [Bool.or_eq_false_iff]
  refine ⟨⟨⟨⟨⟨?_, ?_⟩, ?_⟩, ?_⟩, ?_⟩, ?_⟩ <;>
    · simp only [decide_eq_false_iff_not]
      intro hEq
      rw [hEq] at h1
      simp at h1

theorem charTrim_natChars (n : Nat) : charTrim (natChars n) = natChars n := by
  apply charTrim_eq_self
  intro c hc
  have hd : c.isDigit = true := by
    have := natChars_all_digits n
    rw [List.all_eq_true] at this
    exact this c hc
  exact pyWsChar_of_digit hd

theorem pyIntChars_natChars (n : Nat) : pyIntChars (natChars n) = some (n : Int) := by
  have hne := natChars_ne_nil n
  have hall := natChars_all_digits n
  cases hcs : natChars n with
  | nil => exact absurd hcs hne
  | cons c rest =>
    have hcd : c.isDigit = true := by
      rw [hcs, List.all_eq_true] at hall
      exact hall c (by simp)
    have hcm : c ≠ '-' := by intro h; rw [h] at hcd; simp [Char.isDigit] at hcd
    have hcp : c ≠ '+' := by intro h; rw [h] at hcd; simp [Char.isDigit] at hcd
    simp only [pyIntChars]
    rw [if_neg hcm, if_neg hcp, ← hcs, parseDigits_natChars n]
    rfl

/-- Round trip: the coercion applied to the string the writer just produced
recovers the integer. -/
theorem coerceCit_citCellStr (n : Int) : coerceCit (.str (citCellStr n)) = n := by
  show (pyIntChars (charTrim (citCellStr n).data)).getD 0 = n
  cases n with
  | ofNat m =>
    show (pyIntChars (charTrim (natChars m))).getD 0 = Int.ofNat m
    rw [charTrim_natChars, pyIntChars_natChars]
    rfl
  | negSucc m =>
    show (pyIntChars (charTrim ('-' :: natChars (m + 1)))).getD 0 = Int.negSucc m
    have htrim : charTrim ('-' :: natChars (m + 1)) = '-' :: natChars (m + 1) := by
      apply charTrim_eq_self
      intro c hc
      rcases List.mem_cons.mp hc with h | h
      · rw [h]; decide
      · have := natChars_all_digits (m + 1)
        rw [List.all_eq_true] at this
        exact pyWsChar_of_digit (this c h)
    rw [htrim]
    simp only [pyIntChars, if_pos rfl]
    rw [parseDigits_natChars]
    simp [Int.negSucc_eq]

-- C5 -------------------------------------------------------------------------

/-- A concrete record whose source `citationCount` cell is the numeric string
`"-3"`. -/
def c5Cell : CellVal := .str "-3"

/-- C5 counterexample: the claim says the persisted `citationCount` is always
a *non-negative* integer.  But the source cell `"-3"` is coerced by
`_save_progress` to the integer `-3` and persisted as the cell `"-3"`:
the persisted value is negative. -/
theorem c5_citation_coercion_counterexample :
    coerceCit c5Cell = -3 ∧ coerceCit c5Cell < 0 ∧ citCellStr (coerceCit c5Cell) = "-3" := by
  refine ⟨by decide, by decide, ?_⟩
  decide

/-- C5 (amended): for every source value of the `citationCount` cell the
coercion is total (the embedding is a total function, mirroring the
`try/except` that never lets `int(...)` raise); malformed input (blank,
non-numeric string, or null) coerces to exactly `0`; and the coerced value is
non-negative whenever the source does not parse as a negative number (a
negative numeric source such as `"-3"` is persisted as-is, which is the one
deviation from the claim). -/
theorem c5_citation_coercion_amended (v : CellVal) :
    (malformedCit v = true → coerceCit v = 0) ∧
    (negativeCitSource v = false → 0 ≤ coerceCit v) := by
  constructor
  · intro h
    cases v with
    | str s =>
      simp only [malformedCit, Option.isNone_iff_eq_none] at h
      simp [coerceCit, h]
    | int n => simp [malformedCit] at h
    | null => rfl
  · intro h
    cases v with
    | str s =>
      simp only [negativeCitSource] at h
      simp only [coerceCit]
      cases hp : pyIntChars (charTrim s.data) with
      | none => simp
      | some k =>
        rw [hp] at h
        simp only [decide_eq_false_iff_not, not_lt] at h
        simpa using h
    | int n =>
      simp only [negativeCitSource, decide_eq_false_iff_not, not_lt] at h
      exact h
    | null => simp [coerceCit]

/-- Witness for C5: instantiating the amended theorem at the malformed cell
`"abc"` and at the numeric cell `7`. -/
theorem c5_citation_coercion_amended_witness :
    coerceCit (.str "abc") = 0 ∧ 0 ≤ coerceCit (.int 7) :=
  ⟨(c5_citation_coercion_amended (.str "abc")).1 (by decide),
   (c5_citation_coercion_amended (.int 7)).2 (by decide)⟩

-- Rate governor (`_wait_for_rate_limit`, lines 34-41) ------------------------

/-- The minimum spacing enforced between API call starts (`1.1` seconds in
the source; exact rationals model the wall clock). -/
def MIN_INTERVAL : ℚ := 11 / 10

/-- One `_wait_for_rate_limit()` call: reads the clock (`now`), sleeps the
remainder of `MIN_INTERVAL` when too little time has elapsed since
`last_request_time`, and returns the newly recorded `last_request_time` (the
clock value after the optional sleep; sleep is modelled as exact and the
second clock read as immediate). -/
def rateStep (lastRequestTime now : ℚ) : ℚ :=
  let timeSinceLast := now - lastRequestTime
  if timeSinceLast < MIN_INTERVAL then now + (MIN_INTERVAL - timeSinceLast) else now

/-- The sequence of recorded call-start times produced by a run of governed
calls: the `i`-th call reaches the governor `d_i ≥ 0` after the previous
recorded start (all of search, paper-detail and author-detail calls share
this single `last_request_time` clock in the source). -/
def rateStarts (lastRequestTime : ℚ) : List ℚ → List ℚ
  | [] => []
  | d :: ds =>
    let s := rateStep lastRequestTime (lastRequestTime + d)
    s :: rateStarts s ds

theorem rateStep_ge (last now : ℚ) : last + MIN_INTERVAL ≤ rateStep last now := by
  unfold rateStep
  dsimp only
  split <;> linarith

theorem rateStarts_head_ge (last : ℚ) (ds : List ℚ) :
    ∀ s ∈ (rateStarts last ds).head?, last + MIN_INTERVAL ≤ s := by
  cases ds with
  | nil => intro s hs; simp [rateStarts] at hs
  | cons d ds =>
    intro s hs
    simp only [rateStarts, List.head?_cons, Option.mem_def, Option.some.injEq] at hs
    rw [← hs]
    exact rateStep_ge last (last + d)

/-- C3: every governed call records a start time at least `MIN_INTERVAL`
after the previously recorded start (it blocks for the remainder when the
clock shows less), and consequently in any sequence of governed calls every
pair of consecutive recorded call starts is at least `MIN_INTERVAL` apart. -/
theorem c3_rate_governor_min_interval :
    (∀ last now : ℚ, last + MIN_INTERVAL ≤ rateStep last now) ∧
    (∀ (last : ℚ) (ds : List ℚ),
      List.Chain' (fun a b => a + MIN_INTERVAL ≤ b) (rateStarts last ds)) := by
  refine ⟨rateStep_ge, ?_⟩
  intro last ds
  induction ds generalizing last with
  | nil => simp [rateStarts]
  | cons d ds ih =>
    simp only [rateStarts]
    rw [List.chain'_cons']
    exact ⟨rateStarts_head_ge _ ds, ih _⟩

-- Match resolver (`search_paper`, lines 94-128) ------------------------------

/-- ASCII lower-casing, modelling Python `str.lower()` on the ASCII titles
this pipeline compares. -/
def pyLowerChar (c : Char) : Char :=
  if 'A' ≤ c && c ≤ 'Z' then Char.ofNat (c.toNat + 32) else c

/-- `title.lower().strip()` — the normalisation applied to both the query
title and every candidate title before comparison. -/
def keyTitle (s : String) : String := ⟨charTrim (s.data.map pyLowerChar)⟩

/-- Is `a` a prefix of `b`? -/
def isPref : List Char → List Char → Bool
  | [], _ => true
  | _ :: _, [] => false
  | a :: as, b :: bs => a == b && isPref as bs

/-- Python's substring containment `a in b`. -/
def subIn (a : List Char) : List Char → Bool
  | [] => a == []
  | b :: bs => isPref a (b :: bs) || subIn a bs

/-- One search candidate as returned by the search endpoint. -/
structure Candidate where
  paperId : String
  title : String
deriving DecidableEq

/-- The similarity score `min(len(a), len(b)) / max(len(a), len(b))` computed
for partially matching titles (line 109; the Python float division is
modelled by exact rational division, which agrees on all realistic title
lengths). -/
def overlapScore (a b : String) : ℚ :=
  ((min a.length b.length : ℕ) : ℚ) / ((max a.length b.length : ℕ) : ℚ)

/-- The same score kept unreduced as its numerator/denominator pair, so the
scan stays kernel-computable.  `ltFrac` below compares two such scores by
cross multiplication, which agrees exactly with comparing the quotients. -/
def scorePair (a b : String) : Nat × Nat := (min a.length b.length, max a.length b.length)

/-- Exact comparison of two ratios held as numerator/denominator pairs. -/
def ltFrac (p q : Nat × Nat) : Bool := decide (p.1 * q.2 < q.1 * p.2)

/-- The candidate scan of `search_paper` (lines 99-112): first
case-insensitive exact match breaks the loop; otherwise substring-related
candidates compete on the overlap score, a candidate replacing the running
best only when its score strictly exceeds `best_score` (initially `0`,
represented as the ratio `0/1`). -/
def selectLoop (tl : String) : Option Candidate → Nat × Nat → List Candidate → Option Candidate
  | best, _, [] => best
  | best, bestScore, c :: rest =>
    let pt := keyTitle c.title
    if tl == pt then some c
    else if subIn tl.data pt.data || subIn pt.data tl.data then
      if ltFrac bestScore (scorePair tl pt) then selectLoop tl (some c) (scorePair tl pt) rest
      else selectLoop tl best bestScore rest
    else selectLoop tl best bestScore rest

/-- The first-result fallback (lines 122-128): the first-ranked candidate is
used when it carries a non-empty `paperId`. -/
def headCandidate : List Candidate → Option Candidate
  | [] => none
  | c :: _ => if c.paperId != "" then some c else none

/-- Which candidate `search_paper` resolves the query to (the candidate whose
details are then fetched): the scan winner when it has a usable `paperId`,
else the first-ranked candidate, else none. -/
def searchSelect (title : String) (papers : List Candidate) : Option Candidate :=
  match selectLoop (keyTitle title) none (0, 1) papers with
  | some c => if c.paperId != "" then some c else headCandidate papers
  | none => headCandidate papers

/-- One title is a case-insensitive substring of the other (the membership
test of line 107). -/
def specRel (tl : String) (c : Candidate) : Bool :=
  subIn tl.data (keyTitle c.title).data || subIn (keyTitle c.title).data tl.data

/-- First-seen maximiser of `f` over a candidate list (ties keep the earlier
candidate), as the spec words the substring-selection rule. -/
def argmaxFirst (f : Candidate → ℚ) : List Candidate → Option Candidate
  | [] => none
  | c :: rest =>
    match argmaxFirst f rest with
    | none => some c
    | some d => if f c < f d then some d else some c

/-- The selection policy exactly as the claim states it: first exact match,
otherwise the `overlapScore`-maximising candidate among those related by the
substring relation (first seen wins ties), otherwise the first-ranked
candidate of a non-empty list. -/
def specSelect (title : String) (papers : List Candidate) : Option Candidate :=
  match papers.find? (fun c => keyTitle c.title == keyTitle title) with
  | some c => some c
  | none =>
    match argmaxFirst (fun c => overlapScore (keyTitle title) (keyTitle c.title))
        (papers.filter (specRel (keyTitle title))) with
    | some c => some c
    | none => papers.head?

/-- The selection policy as the code actually behaves: identical to
`specSelect` except that only substring-related candidates of *positive*
score (both normalised titles non-empty) can win the middle rule, because
the scan only replaces the running best on a strict improvement over the
initial score `0`. -/
def amendedSelect (title : String) (papers : List Candidate) : Option Candidate :=
  match papers.find? (fun c => keyTitle c.title == keyTitle title) with
  | some c => some c
  | none =>
    match argmaxFirst (fun c => overlapScore (keyTitle title) (keyTitle c.title))
        (papers.filter (fun c =>
          specRel (keyTitle title) c &&
          decide (0 < overlapScore (keyTitle title) (keyTitle c.title)))) with
    | some c => some c
    | none => papers.head?

/-- C2 counterexample: with query `"abc"` and candidates
`["xyz", ""]` the empty candidate title is a (degenerate, score-0) substring
of the query, so the claim's rule 2 selects it; the code never selects a
score-0 candidate and falls back to the first-ranked `"xyz"`. -/
theorem c2_match_priority_counterexample :
    searchSelect "abc" [⟨"id1", "xyz"⟩, ⟨"id2", ""⟩] = some ⟨"id1", "xyz"⟩ ∧
    specSelect "abc" [⟨"id1", "xyz"⟩, ⟨"id2", ""⟩] = some ⟨"id2", ""⟩ ∧
    searchSelect "abc" [⟨"id1", "xyz"⟩, ⟨"id2", ""⟩] ≠
      specSelect "abc" [⟨"id1", "xyz"⟩, ⟨"id2", ""⟩] := by
  have h1 : searchSelect "abc" [⟨"id1", "xyz"⟩, ⟨"id2", ""⟩] = some ⟨"id1", "xyz"⟩ := by
    decide
  have h2 : specSelect "abc" [⟨"id1", "xyz"⟩, ⟨"id2", ""⟩] = some ⟨"id2", ""⟩ := by
    unfold specSelect
    rw [show (List.find? (fun c => keyTitle c.title == keyTitle "abc")
      [(⟨"id1", "xyz"⟩ : Candidate), ⟨"id2", ""⟩]) = none from by decide]
    rw [show (List.filter (specRel (keyTitle "abc"))
      [(⟨"id1", "xyz"⟩ : Candidate), ⟨"id2", ""⟩]) = [⟨"id2", ""⟩] from by decide]
    rfl
  refine ⟨h1, h2, ?_⟩
  rw [h1, h2]
  decide

-- C2 equivalence machinery ---------------------------------------------------

theorem ltFrac_iff {a b c d : Nat} (hb : 0 < b) (hd : 0 < d) :
    ltFrac (a, b) (c, d) = true ↔ (a : ℚ) / b < (c : ℚ) / d := by
  unfold ltFrac
  rw [decide_eq_true_eq]
  rw [div_lt_div_iff₀ (by exact_mod_cast hb) (by exact_mod_cast hd)]
  constructor
  · intro h; exact_mod_cast h
  · intro h; exact_mod_cast h

theorem max_len_pos {tl pt : String} (h : tl ≠ pt) : 0 < max tl.length pt.length := by
  by_contra hc
  push_neg at hc
  have h1 : tl.length = 0 := by omega
  have h2 : pt.length = 0 := by omega
  apply h
  cases tl with
  | mk d1 =>
    cases pt with
    | mk d2 =>
      have e1 : d1 = [] := by
        have := h1
        simp only [String.length] at this
        exact List.eq_nil_of_length_eq_zero this
      have e2 : d2 = [] := by
        have := h2
        simp only [String.length] at this
        exact List.eq_nil_of_length_eq_zero this
      rw [e1, e2]

theorem overlapScore_eq_pair (tl pt : String) :
    overlapScore tl pt = ((scorePair tl pt).1 : ℚ) / ((scorePair tl pt).2 : ℚ) := rfl

/-- `argmaxFirst` returns an element of the list. -/
theorem argmaxFirst_mem (f : Candidate → ℚ) :
    ∀ (l : List Candidate) (c : Candidate), argmaxFirst f l = some c → c ∈ l := by
  intro l
  induction l with
  | nil => intro c h; simp [argmaxFirst] at h
  | cons x xs ih =>
    intro c h
    simp only [argmaxFirst] at h
    cases hx : argmaxFirst f xs with
    | none => simp only [hx] at h; simp at h; simp [h]
    | some d =>
      simp only [hx] at h
      by_cases hlt : f x < f d
      · rw [if_pos hlt] at h
        simp only [Option.some.injEq] at h
        exact List.mem_cons_of_mem x (ih c (h ▸ hx))
      · rw [if_neg hlt] at h
        simp only [Option.some.injEq] at h
        simp [h]

theorem argmaxFirst_eq_none (f : Candidate → ℚ) :
    ∀ l : List Candidate, argmaxFirst f l = none ↔ l = [] := by
  intro l
  cases l with
  | nil => simp [argmaxFirst]
  | cons x xs =>
    simp only [argmaxFirst]
    constructor
    · intro h
      cases hx : argmaxFirst f xs with
      | none => rw [hx] at h; simp at h
      | some d => rw [hx] at h; by_cases hlt : f x < f d <;> simp [hlt] at h
    · intro h; simp at h

theorem filter_threshold_empty (sc : Candidate → ℚ) (rel : Candidate → Bool)
    {b h : ℚ} (hbh : b ≤ h) :
    ∀ L : List Candidate,
      L.filter (fun c => rel c && decide (b < sc c)) = [] →
      L.filter (fun c => rel c && decide (h < sc c)) = [] := by
  intro L hL
  rw [List.filter_eq_nil_iff] at hL ⊢
  intro a ha
  have := hL a ha
  simp only [Bool.and_eq_true, decide_eq_true_eq, not_and] at this ⊢
  intro hrel hlt
  exact this hrel (lt_of_le_of_lt hbh hlt)

/-- Threshold lemma: raising the strict-improvement threshold from `b` to `h`
commutes with taking the first-seen maximiser, provided candidates not
exceeding `h` fall back to the default `d`. -/
theorem argmax_threshold (sc : Candidate → ℚ) (rel : Candidate → Bool) :
    ∀ (L : List Candidate) (b h : ℚ) (d : Candidate), b ≤ h →
      (argmaxFirst sc (L.filter (fun c => rel c && decide (h < sc c)))).getD d =
      (match argmaxFirst sc (L.filter (fun c => rel c && decide (b < sc c))) with
       | none => d
       | some y => if h < sc y then y else d) := by
  intro L
  induction L with
  | nil => intro b h d hbh; simp [argmaxFirst]
  | cons x L ih =>
    intro b h d hbh
    by_cases hrel : rel x = true
    · by_cases hxb : b < sc x
      · by_cases hxh : h < sc x
        · -- kept in both filters
          rw [List.filter_cons, List.filter_cons]
          rw [if_pos (by simp [hrel, hxh]), if_pos (by simp [hrel, hxb])]
          simp only [argmaxFirst]
          cases hb' : argmaxFirst sc (L.filter (fun c => rel c && decide (b < sc c))) with
          | none =>
            have hFb := (argmaxFirst_eq_none sc _).mp hb'
            have hFh := filter_threshold_empty sc rel hbh L hFb
            rw [hFh, show argmaxFirst sc [] = none from rfl]
            dsimp only
            rw [if_pos hxh]
            rfl
          | some y =>
            have ih1 := ih h (sc x) x (le_of_lt hxh)
            have ih2 := ih b (sc x) x (le_of_lt hxb)
            rw [hb'] at ih2
            dsimp only at ih2 ⊢
            cases hh' : argmaxFirst sc (L.filter (fun c => rel c && decide (h < sc c))) with
            | none =>
              rw [hh'] at ih1
              dsimp only at ih1 ⊢
              by_cases hxy : sc x < sc y
              · rw [if_pos hxy] at ih2 ⊢
                dsimp only
                rw [if_pos (lt_trans hxh hxy)]
                exact ih1.symm.trans ih2
              · rw [if_neg hxy] at ih2 ⊢
                dsimp only
                rw [if_pos hxh]
                rfl
            | some z =>
              rw [hh'] at ih1
              dsimp only at ih1 ⊢
              by_cases hxz : sc x < sc z
              · rw [if_pos hxz] at ih1 ⊢
                simp only [Option.getD_some]
                by_cases hxy : sc x < sc y
                · rw [if_pos hxy] at ih2 ⊢
                  dsimp only
                  rw [if_pos (lt_trans hxh hxy)]
                  exact ih1.symm.trans ih2
                · rw [if_neg hxy] at ih2 ⊢
                  dsimp only
                  rw [if_pos hxh]
                  exact ih1.symm.trans ih2
              · rw [if_neg hxz] at ih1 ⊢
                simp only [Option.getD_some]
                by_cases hxy : sc x < sc y
                · rw [if_pos hxy] at ih2 ⊢
                  dsimp only
                  rw [if_pos (lt_trans hxh hxy)]
                  exact ih1.symm.trans ih2
                · rw [if_neg hxy] at ih2 ⊢
                  dsimp only
                  rw [if_pos hxh]
        · -- b < sc x ≤ h: dropped from the h-filter, kept in the b-filter
          rw [List.filter_cons, List.filter_cons]
          rw [if_neg (by simp [hxh]), if_pos (by simp [hrel, hxb])]
          simp only [argmaxFirst]
          cases hb' : argmaxFirst sc (L.filter (fun c => rel c && decide (b < sc c))) with
          | none =>
            have hFb := (argmaxFirst_eq_none sc _).mp hb'
            have hFh := filter_threshold_empty sc rel hbh L hFb
            rw [hFh, show argmaxFirst sc [] = none from rfl]
            dsimp only
            rw [if_neg hxh]
            rfl
          | some y =>
            have ihb := ih b h d hbh
            rw [hb'] at ihb
            dsimp only at ihb ⊢
            by_cases hxy : sc x < sc y
            · rw [if_pos hxy]
              dsimp only
              exact ihb
            · rw [if_neg hxy]
              dsimp only
              rw [if_neg hxh]
              have hyh : ¬ h < sc y := fun hh =>
                hxh (lt_of_lt_of_le hh (le_of_not_lt hxy))
              rw [if_neg hyh] at ihb
              exact ihb
      · -- sc x ≤ b: dropped from both filters
        have hxh : ¬ h < sc x := fun hh => hxb (lt_of_le_of_lt hbh hh)
        rw [List.filter_cons, List.filter_cons]
        rw [if_neg (by simp [hxh]), if_neg (by simp [hxb])]
        exact ih b h d hbh
    · -- not substring-related: dropped from both filters
      rw [List.filter_cons, List.filter_cons]
      rw [if_neg (by simp [hrel]), if_neg (by simp [hrel])]
      exact ih b h d hbh

theorem bool_eq_false {b : Bool} (h : ¬ b = true) : b = false := by
  cases b
  · rfl
  · exact absurd rfl h

/-- If some candidate matches exactly, the scan returns the first such
candidate whatever the accumulator holds (the `break` at line 106). -/
theorem selectLoop_exact (tl : String) :
    ∀ (cs : List Candidate) (best : Option Candidate) (bs : Nat × Nat) (c : Candidate),
      cs.find? (fun x => keyTitle x.title == tl) = some c →
      selectLoop tl best bs cs = some c := by
  intro cs
  induction cs with
  | nil => intro best bs c h; simp at h
  | cons d rest ih =>
    intro best bs c h
    by_cases hd : (keyTitle d.title == tl) = true
    · simp only [List.find?_cons, hd] at h
      simp only [Option.some.injEq] at h
      subst h
      simp only [selectLoop]
      have hcond : (tl == keyTitle d.title) = true := by
        rw [beq_iff_eq] at hd ⊢
        exact hd.symm
      rw [if_pos hcond]
    · have hd' := bool_eq_false hd
      simp only [List.find?_cons, hd'] at h
      simp only [selectLoop]
      have hcond : ¬ ((tl == keyTitle d.title) = true) := by
        intro hc
        apply hd
        rw [beq_iff_eq] at hc ⊢
        exact hc.symm
      rw [if_neg hcond]
      by_cases hsub : (subIn tl.data (keyTitle d.title).data ||
          subIn (keyTitle d.title).data tl.data) = true
      · rw [if_pos hsub]
        by_cases hlt : ltFrac bs (scorePair tl (keyTitle d.title)) = true
        · rw [if_pos hlt]; exact ih _ _ c h
        · rw [if_neg hlt]; exact ih _ _ c h
      · rw [if_neg hsub]; exact ih _ _ c h

/-- With no exact match in sight, the scan with accumulator `(best, bs)`
returns the first-seen maximiser among substring-related candidates scoring
strictly above `bs`, falling back to `best`. -/
theorem selectLoop_no_exact (tl : String) :
    ∀ (cs : List Candidate) (best : Option Candidate) (bs : Nat × Nat), 0 < bs.2 →
      cs.find? (fun x => keyTitle x.title == tl) = none →
      selectLoop tl best bs cs =
      (match argmaxFirst (fun c => overlapScore tl (keyTitle c.title))
          (cs.filter (fun c => specRel tl c &&
            decide ((bs.1 : ℚ) / (bs.2 : ℚ) < overlapScore tl (keyTitle c.title)))) with
       | none => best
       | some y => some y) := by
  intro cs
  induction cs with
  | nil => intro best bs hbs h; simp [selectLoop, argmaxFirst]
  | cons d rest ih =>
    intro best bs hbs h
    have hd : ¬ ((keyTitle d.title == tl) = true) := by
      intro hc
      simp only [List.find?_cons, hc] at h
      exact Option.noConfusion h
    have hd' := bool_eq_false hd
    simp only [List.find?_cons, hd'] at h
    have hcond : ¬ ((tl == keyTitle d.title) = true) := by
      intro hc
      apply hd
      rw [beq_iff_eq] at hc ⊢
      exact hc.symm
    have hdne : tl ≠ keyTitle d.title := by
      intro he
      exact hcond (by rw [beq_iff_eq]; exact he)
    simp only [selectLoop]
    rw [if_neg hcond]
    by_cases hsub : (subIn tl.data (keyTitle d.title).data ||
        subIn (keyTitle d.title).data tl.data) = true
    · rw [if_pos hsub]
      have hrel : specRel tl d = true := by
        simp only [specRel]
        exact hsub
      have hposd : 0 < (scorePair tl (keyTitle d.title)).2 := max_len_pos hdne
      by_cases hlt : ltFrac bs (scorePair tl (keyTitle d.title)) = true
      · rw [if_pos hlt]
        have hQ : (bs.1 : ℚ) / (bs.2 : ℚ) < overlapScore tl (keyTitle d.title) := by
          rw [overlapScore_eq_pair]
          exact (ltFrac_iff hbs hposd).mp hlt
        have hcnd : (specRel tl d &&
            decide ((bs.1 : ℚ) / (bs.2 : ℚ) < overlapScore tl (keyTitle d.title))) = true := by
          simp only [hrel, Bool.true_and, decide_eq_true_eq]
          exact hQ
        have ihd := ih (some d) (scorePair tl (keyTitle d.title)) hposd h
        rw [ihd]
        rw [List.filter_cons, if_pos hcnd]
        have hH := argmax_threshold (fun c => overlapScore tl (keyTitle c.title))
          (specRel tl) rest ((bs.1 : ℚ) / (bs.2 : ℚ))
          (overlapScore tl (keyTitle d.title)) d (le_of_lt hQ)
        rw [← overlapScore_eq_pair]
        simp only [argmaxFirst]
        cases hrest : argmaxFirst (fun c => overlapScore tl (keyTitle c.title))
            (rest.filter (fun c => specRel tl c &&
              decide ((bs.1 : ℚ) / (bs.2 : ℚ) < overlapScore tl (keyTitle c.title)))) with
        | none =>
          rw [hrest] at hH
          dsimp only at hH
          cases hrest2 : argmaxFirst (fun c => overlapScore tl (keyTitle c.title))
              (rest.filter (fun c => specRel tl c &&
                decide (overlapScore tl (keyTitle d.title) <
                  overlapScore tl (keyTitle c.title)))) with
          | none => dsimp only
          | some z =>
            rw [hrest2] at hH
            simp only [Option.getD_some] at hH
            dsimp only
            rw [hH]
        | some y =>
          rw [hrest] at hH
          dsimp only at hH
          cases hrest2 : argmaxFirst (fun c => overlapScore tl (keyTitle c.title))
              (rest.filter (fun c => specRel tl c &&
                decide (overlapScore tl (keyTitle d.title) <
                  overlapScore tl (keyTitle c.title)))) with
          | none =>
            rw [hrest2] at hH
            simp only [Option.getD_none] at hH
            dsimp only
            by_cases hdy : overlapScore tl (keyTitle d.title) <
                overlapScore tl (keyTitle y.title)
            · rw [if_pos hdy] at hH ⊢
              try dsimp only
              try rw [← hH]
            · rw [if_neg hdy] at hH ⊢
              try dsimp only
              try rw [← hH]
          | some z =>
            rw [hrest2] at hH
            simp only [Option.getD_some] at hH
            dsimp only
            by_cases hdy : overlapScore tl (keyTitle d.title) <
                overlapScore tl (keyTitle y.title)
            · rw [if_pos hdy] at hH ⊢
              try dsimp only
              try rw [hH]
            · rw [if_neg hdy] at hH ⊢
              try dsimp only
              try rw [hH]
      · rw [if_neg hlt]
        have hQ : ¬ ((bs.1 : ℚ) / (bs.2 : ℚ) < overlapScore tl (keyTitle d.title)) := by
          rw [overlapScore_eq_pair]
          intro hc
          exact hlt ((ltFrac_iff hbs hposd).mpr hc)
        have hcnd : (specRel tl d &&
            decide ((bs.1 : ℚ) / (bs.2 : ℚ) < overlapScore tl (keyTitle d.title))) = false := by
          simp only [hrel, Bool.true_and]
          rw [decide_eq_false_iff_not]
          exact hQ
        rw [ih best bs hbs h]
        rw [List.filter_cons, if_neg (by simp [hcnd])]
    · rw [if_neg hsub]
      have hrel : specRel tl d = false := by
        simp only [specRel]
        exact bool_eq_false hsub
      have hcnd : (specRel tl d &&
          decide ((bs.1 : ℚ) / (bs.2 : ℚ) < overlapScore tl (keyTitle d.title))) = false := by
        rw [hrel]
        rfl
      rw [ih best bs hbs h]
      rw [List.filter_cons, if_neg (by simp [hcnd])]

/-- C2 (amended): for every candidate list in which every candidate carries a
non-empty `paperId`, the code selection equals the claim's priority order
with one correction forced by the counterexample: in rule 2 only
substring-related candidates of *positive* overlap ratio can be selected
(a ratio-0 candidate, i.e. one of the two normalised titles empty, never
displaces the running best because the scan demands a strict improvement
over the initial score 0), and otherwise the first-ranked fallback applies.
Rule 1 (case-insensitive exact match wins immediately, even when not first)
and rule 3 are as claimed. -/
theorem c2_match_selection_amended (title : String) (papers : List Candidate)
    (hid : ∀ c ∈ papers, c.paperId ≠ "") :
    searchSelect title papers = amendedSelect title papers := by
  unfold searchSelect amendedSelect
  cases hf : papers.find? (fun c => keyTitle c.title == keyTitle title) with
  | some c =>
    rw [selectLoop_exact (keyTitle title) papers none (0, 1) c hf]
    dsimp only
    have hc : c ∈ papers := List.mem_of_find?_eq_some hf
    have hidc : (c.paperId != "") = true := by
      rw [bne_iff_ne]
      exact hid c hc
    rw [if_pos hidc]
  | none =>
    have hG := selectLoop_no_exact (keyTitle title) papers none (0, 1) (by decide) hf
    have hz : ((((0, 1) : Nat × Nat).1 : ℚ) / (((0, 1) : Nat × Nat).2 : ℚ)) = 0 := by
      norm_num
    simp only [hz] at hG
    rw [hG]
    cases ha : argmaxFirst (fun c => overlapScore (keyTitle title) (keyTitle c.title))
        (papers.filter (fun c => specRel (keyTitle title) c &&
          decide (0 < overlapScore (keyTitle title) (keyTitle c.title)))) with
    | some y =>
      dsimp only
      have hy : y ∈ papers := List.mem_of_mem_filter (argmaxFirst_mem _ _ y ha)
      have hidy : (y.paperId != "") = true := by
        rw [bne_iff_ne]
        exact hid y hy
      rw [if_pos hidy]
    | none =>
      dsimp only
      cases papers with
      | nil => rfl
      | cons c rest =>
        have hidc : (c.paperId != "") = true := by
          rw [bne_iff_ne]
          exact hid c (by simp)
        simp only [headCandidate, List.head?]
        rw [if_pos hidc]

/-- Witness for C2: the claim's own concrete instance.  With candidates
`["Foo Bar Baz", "Foo Bar"]` and query `"Foo Bar"`, the amended selection
applies (all `paperId`s non-empty) and picks the exact match `"Foo Bar"`
even though it is not first in the list. -/
theorem c2_match_selection_amended_witness :
    searchSelect "Foo Bar" [⟨"a", "Foo Bar Baz"⟩, ⟨"b", "Foo Bar"⟩] =
      some ⟨"b", "Foo Bar"⟩ := by
  have h := c2_match_selection_amended "Foo Bar" [⟨"a", "Foo Bar Baz"⟩, ⟨"b", "Foo Bar"⟩]
    (by
      intro c hc
      simp only [List.mem_cons, List.not_mem_nil, or_false] at hc
      rcases hc with h | h <;> subst h <;> decide)
  rw [h]
  unfold amendedSelect
  rw [show (List.find? (fun c => keyTitle c.title == keyTitle "Foo Bar")
    [(⟨"a", "Foo Bar Baz"⟩ : Candidate), ⟨"b", "Foo Bar"⟩]) =
      some ⟨"b", "Foo Bar"⟩ from by decide]

-- Detail & affiliation fetcher (`get_paper_details` lines 205-242,
-- `enrich_paper` serialisation lines 291-313) --------------------------------

/-- One author as returned by the paper-detail endpoint. -/
structure SSAuthor where
  authorId : String
  name : String
deriving DecidableEq

/-- One entry of `authorsWithAffiliations` (the dicts built at lines
223-240): `has_affiliations` is the spec's `wasFetched` flag. -/
structure AffEntry where
  name : String
  affiliations : List String
  has_affiliations : Bool
deriving DecidableEq

/-- `authors_to_process` (lines 210-213): `min(cap, len(authors))` with an
unset cap meaning all authors. -/
def authorsToProcess (maxAuthorsForAffiliations : Option Nat) (numAuthors : Nat) : Nat :=
  match maxAuthorsForAffiliations with
  | some k => min k numAuthors
  | none => numAuthors

/-- The entry built for the author at position `idx` (lines 215-240): the
first `n` authors get an affiliation lookup (empty list when the author has
no id) and are flagged fetched; later authors are recorded name-only. -/
def mkAffEntry (affOf : String → List String) (n idx : Nat) (a : SSAuthor) : AffEntry :=
  if idx < n then
    if a.authorId != "" then ⟨a.name, affOf a.authorId, true⟩
    else ⟨a.name, [], true⟩
  else ⟨a.name, [], false⟩

/-- The `for idx, author in enumerate(authors_list)` loop. -/
def buildAffEntries (affOf : String → List String) (n : Nat) :
    Nat → List SSAuthor → List AffEntry
  | _, [] => []
  | idx, a :: rest => mkAffEntry affOf n idx a :: buildAffEntries affOf n (idx + 1) rest

/-- `authorsWithAffiliations` as attached to the paper-detail response.
`affOf` is the (rate-governed) author-detail endpoint, a pure function in
this embedding. -/
def authorsWithAffiliations (maxAuthorsForAffiliations : Option Nat)
    (affOf : String → List String) (authors : List SSAuthor) : List AffEntry :=
  buildAffEntries affOf (authorsToProcess maxAuthorsForAffiliations authors.length) 0 authors

/-- The entry a fetched (leading) author produces. -/
def fetchedEntry (affOf : String → List String) (a : SSAuthor) : AffEntry :=
  if a.authorId != "" then ⟨a.name, affOf a.authorId, true⟩ else ⟨a.name, [], true⟩

/-- The entry an unfetched (trailing) author produces. -/
def bareEntry (a : SSAuthor) : AffEntry := ⟨a.name, [], false⟩

/-- Serialisation of one entry (lines 298-308): `"Name: aff1; aff2"`,
`"Name: (无)"` for a fetched author with no affiliations, bare name for an
unfetched author. -/
def renderAffEntry (e : AffEntry) : String :=
  if e.has_affiliations then
    if e.affiliations != [] then e.name ++ ": " ++ String.intercalate "; " e.affiliations
    else e.name ++ ": (无)"
  else e.name

/-- The serialised `affiliations` string (lines 310-313): entries joined by
`" | "`. -/
def serializeAffiliations (entries : List AffEntry) : String :=
  String.intercalate " | " (entries.map renderAffEntry)

theorem buildAffEntries_split (affOf : String → List String) (n : Nat) :
    ∀ (authors : List SSAuthor) (idx : Nat),
      buildAffEntries affOf n idx authors =
        (authors.take (n - idx)).map (fetchedEntry affOf) ++
        (authors.drop (n - idx)).map bareEntry := by
  intro authors
  induction authors with
  | nil => intro idx; simp [buildAffEntries]
  | cons a rest ih =>
    intro idx
    simp only [buildAffEntries]
    by_cases hidx : idx < n
    · have hsub : n - idx = (n - (idx + 1)) + 1 := by omega
      rw [hsub]
      simp only [List.take_succ_cons, List.drop_succ_cons, List.map_cons, List.cons_append]
      rw [ih (idx + 1)]
      simp only [mkAffEntry, fetchedEntry, if_pos hidx]
    · have hsub : n - idx = 0 := by omega
      have hsub1 : n - (idx + 1) = 0 := by omega
      rw [hsub]
      simp only [List.take_zero, List.drop_zero, List.map_nil, List.nil_append, List.map_cons]
      rw [ih (idx + 1), hsub1]
      simp only [List.take_zero, List.drop_zero, List.map_nil, List.nil_append]
      simp only [mkAffEntry, bareEntry, if_neg hidx]

theorem fetchedEntry_flag (affOf : String → List String) (a : SSAuthor) :
    (fetchedEntry affOf a).has_affiliations = true := by
  unfold fetchedEntry
  split <;> rfl

theorem bareEntry_render (a : SSAuthor) : renderAffEntry (bareEntry a) = a.name := rfl

/-- Concrete author-detail endpoint for the claim's 5-author instance. -/
def demoAff : String → List String := fun i => if i = "a1" then ["X", "Y"] else []

/-- Five authors in API order. -/
def demoAuthors : List SSAuthor :=
  [⟨"a1", "Alice"⟩, ⟨"a2", "Bob"⟩, ⟨"a3", "Carol"⟩, ⟨"a4", "Dan"⟩, ⟨"a5", "Eve"⟩]

/-- C7: with `maxAuthorsForAffiliations = N` and `M` authors, exactly
`min N M` leading authors (in API order) are flagged fetched and the rest
are recorded name-only; the serialised string joins one entry per author
with `" | "`, rendering fetched authors as `"Name: aff1; aff2"` /
`"Name: (无)"` and unfetched authors as the bare name.  The final conjunct
is the claim's own instance: `N = 2`, `M = 5` gives exactly 2 `"Name: ..."`
segments and 3 bare names. -/
theorem c7_affiliation_cap_serialization (N : Nat) (affOf : String → List String)
    (authors : List SSAuthor) :
    authorsWithAffiliations (some N) affOf authors =
      (authors.take (min N authors.length)).map (fetchedEntry affOf) ++
      (authors.drop (min N authors.length)).map bareEntry ∧
    (authorsWithAffiliations (some N) affOf authors).countP (·.has_affiliations) =
      min N authors.length ∧
    serializeAffiliations (authorsWithAffiliations (some N) affOf authors) =
      String.intercalate " | "
        ((authors.take (min N authors.length)).map
            (fun a => renderAffEntry (fetchedEntry affOf a)) ++
         (authors.drop (min N authors.length)).map SSAuthor.name) ∧
    serializeAffiliations (authorsWithAffiliations (some 2) demoAff demoAuthors) =
      "Alice: X; Y | Bob: (无) | Carol | Dan | Eve" := by
  have hsplit : authorsWithAffiliations (some N) affOf authors =
      (authors.take (min N authors.length)).map (fetchedEntry affOf) ++
      (authors.drop (min N authors.length)).map bareEntry := by
    unfold authorsWithAffiliations authorsToProcess
    rw [buildAffEntries_split affOf (min N authors.length) authors 0]
    simp
  refine ⟨hsplit, ?_, ?_, by decide⟩
  · rw [hsplit]
    rw [List.countP_append, List.countP_map, List.countP_map]
    have h1 : List.countP ((fun e => e.has_affiliations) ∘ fetchedEntry affOf)
        (authors.take (min N authors.length)) =
        (authors.take (min N authors.length)).length := by
      rw [List.countP_eq_length]
      intro a _
      exact fetchedEntry_flag affOf a
    have h2 : List.countP ((fun e => e.has_affiliations) ∘ bareEntry)
        (authors.drop (min N authors.length)) = 0 := by
      rw [List.countP_eq_zero]
      intro a _
      simp [Function.comp, bareEntry]
    rw [h1, h2, List.length_take]
    omega
  · unfold serializeAffiliations
    rw [hsplit, List.map_append, List.map_map, List.map_map]
    have hbare : renderAffEntry ∘ bareEntry = SSAuthor.name := funext bareEntry_render
    rw [hbare]
    rfl

-- Enrichment orchestrator (`enrich_csv`, lines 344-538) ----------------------

/-- One row of the working dataset as held in memory (`csv.DictReader` dict).
The seven schema fields are explicit; any further input columns ride along in
`extras`. -/
structure Paper where
  title : String
  authors : String
  conference : String
  year : String
  abstract : String
  citationCount : CellVal
  affiliations : String
  extras : List (String × String)
deriving DecidableEq

/-- Terminal classification of one record within a run. -/
inductive Outcome
  | skippedAbstract
  | skippedData
  | enriched
  | failed
deriving DecidableEq

/-- What `enrich_paper` delivers for one record: a result triple (the
no-match case is `ok "" 0 ""`, the dict of defaults the function returns
when search finds nothing), or an exception escaping into the record-level
`except` (line 498). -/
inductive FetchOutcome
  | ok (abstract : String) (citationCount : Int) (affiliations : String)
  | exn
deriving DecidableEq

/-- The external resolve/fetch pipeline as a deterministic function of the
arguments `enrich_paper` receives: stripped title, stripped authors, parsed
year. -/
def Fetch := String → String → Option Int → FetchOutcome

/-- Year parsing (lines 463-469): `int(year_str)` on the stripped cell,
unparsable or empty yielding no year, never an error. -/
def parseYear (s : String) : Option Int := pyIntChars (charTrim s.data)

/-- The "sufficiently enriched" skip predicate (lines 445-458):
`(abstract non-empty OR citationCount > 0) AND (affiliations fetching
disabled OR affiliations non-empty)`. -/
def sufficientlyEnriched (getAffiliations : Bool) (p : Paper) : Bool :=
  (pyStrip p.abstract != "" || decide (0 < coerceCit p.citationCount)) &&
  (!getAffiliations || p.affiliations != "")

/-- The reset applied on the failure paths (lines 493-495 and 499-501). -/
def resetPaper (p : Paper) : Paper :=
  {p with abstract := "", citationCount := .int 0, affiliations := ""}

/-- One iteration of the per-record loop body (lines 436-503), up to but not
including the checkpoint logic: the two skip branches, then the fetch-merge
with its record-level exception handler.  Returns the updated record, its
classification, and whether the API path was entered. -/
def processRecord (getAffiliations skipExistingAbstract : Bool) (fetch : Fetch)
    (p : Paper) : Paper × Outcome × Bool :=
  if skipExistingAbstract && (pyStrip p.abstract != "") then (p, .skippedAbstract, false)
  else if sufficientlyEnriched getAffiliations p then (p, .skippedData, false)
  else
    match fetch (pyStrip p.title) (pyStrip p.authors) (parseYear (pyStrip p.year)) with
    | .ok ab c af =>
      if ab != "" || decide (0 < c) then
        ({p with abstract := ab, citationCount := .int c, affiliations := af}, .enriched, true)
      else (resetPaper p, .failed, true)
    | .exn => (resetPaper p, .failed, true)

/-- A record with a non-empty abstract but no affiliations. -/
def c1Paper : Paper := ⟨"T", "A", "C", "2020", "An abstract", .int 0, "", []⟩

/-- A fetch that always raises. -/
def fetchExn : Fetch := fun _ _ _ => .exn

/-- C1 counterexample: with affiliation fetching enabled and the
skip-existing-abstract option on, a record with a non-empty abstract and an
empty affiliations field is skipped without any API call even though the
sufficiently-enriched predicate is false — so "skipped iff sufficiently
enriched" fails as stated. -/
theorem c1_skip_predicate_counterexample :
    (processRecord true true fetchExn c1Paper).2.1 = .skippedAbstract ∧
    (processRecord true true fetchExn c1Paper).2.2 = false ∧
    (processRecord true true fetchExn c1Paper).1 = c1Paper ∧
    sufficientlyEnriched true c1Paper = false := by
  decide

/-- C1 (amended): a record is skipped without any API call iff it satisfies
the sufficiently-enriched predicate *or* the skip-existing-abstract option
is enabled and its (stripped) abstract is non-empty; and the skip branches
leave the record unmodified.  With the option disabled (the default of
`enrich_csv`) this is exactly the claimed equivalence. -/
theorem c1_skip_characterization (ga se : Bool) (fetch : Fetch) (p : Paper) :
    (((processRecord ga se fetch p).2.1 = .skippedAbstract ∨
      (processRecord ga se fetch p).2.1 = .skippedData) ↔
      ((se = true ∧ pyStrip p.abstract ≠ "") ∨ sufficientlyEnriched ga p = true)) ∧
    (((processRecord ga se fetch p).2.1 = .skippedAbstract ∨
      (processRecord ga se fetch p).2.1 = .skippedData) →
      (processRecord ga se fetch p).1 = p ∧ (processRecord ga se fetch p).2.2 = false) := by
  unfold processRecord
  by_cases h1 : (se && (pyStrip p.abstract != "")) = true
  · rw [if_pos h1]
    dsimp only
    have h1' := h1
    simp only [Bool.and_eq_true, bne_iff_ne] at h1'
    exact ⟨⟨fun _ => Or.inl ⟨h1'.1, h1'.2⟩, fun _ => Or.inl rfl⟩, fun _ => ⟨rfl, rfl⟩⟩
  · rw [if_neg h1]
    by_cases h2 : sufficientlyEnriched ga p = true
    · rw [if_pos h2]
      dsimp only
      exact ⟨⟨fun _ => Or.inr h2, fun _ => Or.inr rfl⟩, fun _ => ⟨rfl, rfl⟩⟩
    · rw [if_neg h2]
      have hnot : ¬ ((se = true ∧ pyStrip p.abstract ≠ "") ∨
          sufficientlyEnriched ga p = true) := by
        intro hc
        rcases hc with ⟨hse, hab⟩ | hsuf
        · apply h1
          rw [hse, Bool.true_and, bne_iff_ne]
          exact hab
        · exact h2 hsuf
      cases hf : fetch (pyStrip p.title) (pyStrip p.authors) (parseYear (pyStrip p.year)) with
      | ok ab c af =>
        dsimp only
        by_cases h3 : (ab != "" || decide (0 < c)) = true
        · rw [if_pos h3]
          dsimp only
          refine ⟨⟨fun hc => ?_, fun hc => absurd hc hnot⟩, fun hc => ?_⟩ <;>
            rcases hc with hc | hc <;> exact absurd hc (by decide)
        · rw [if_neg h3]
          dsimp only
          refine ⟨⟨fun hc => ?_, fun hc => absurd hc hnot⟩, fun hc => ?_⟩ <;>
            rcases hc with hc | hc <;> exact absurd hc (by decide)
      | exn =>
        dsimp only
        refine ⟨⟨fun hc => ?_, fun hc => absurd hc hnot⟩, fun hc => ?_⟩ <;>
          rcases hc with hc | hc <;> exact absurd hc (by decide)

/-- A sufficiently enriched record (abstract and affiliations present). -/
def c1DonePaper : Paper := ⟨"T", "A", "C", "2020", "Abs", .int 3, "Aff", []⟩

/-- Witness for C1: instantiating the characterization at a sufficiently
enriched record under the default mode shows it is skipped unmodified. -/
theorem c1_skip_characterization_witness :
    ((processRecord true false fetchExn c1DonePaper).2.1 = .skippedAbstract ∨
      (processRecord true false fetchExn c1DonePaper).2.1 = .skippedData) ∧
    (processRecord true false fetchExn c1DonePaper).1 = c1DonePaper := by
  have h := c1_skip_characterization true false fetchExn c1DonePaper
  have hs := h.1.mpr (Or.inr (by decide))
  exact ⟨hs, (h.2 hs).1⟩

/-- C4: for a record that is not skipped, a fetch with any signal
(non-empty abstract or positive citation count) overwrites all three
enrichment fields with the fetched values and classifies the record
ENRICHED; a signal-free result — which is exactly what the empty candidate
list produces (`ok "" 0 ""`) — or an exception anywhere in the resolve/fetch
path resets all three fields to `""`/`0`/`""` and classifies it FAILED.  The
exception constructor being handled to a value (rather than a fourth exit of
the run) is the record boundary: no exception escapes it, and the loop
continues with the next record. -/
theorem c4_nonskipped_merge_or_reset (ga se : Bool) (fetch : Fetch) (p : Paper)
    (h1 : ¬ (se && (pyStrip p.abstract != "")) = true)
    (h2 : sufficientlyEnriched ga p = false) :
    (∀ ab c af,
      fetch (pyStrip p.title) (pyStrip p.authors) (parseYear (pyStrip p.year)) = .ok ab c af →
      ((ab ≠ "" ∨ 0 < c) →
        processRecord ga se fetch p =
          ({p with abstract := ab, citationCount := .int c, affiliations := af},
            .enriched, true)) ∧
      (ab = "" → c ≤ 0 →
        processRecord ga se fetch p = (resetPaper p, .failed, true))) ∧
    (fetch (pyStrip p.title) (pyStrip p.authors) (parseYear (pyStrip p.year)) = .exn →
      processRecord ga se fetch p = (resetPaper p, .failed, true)) := by
  have h2' : ¬ sufficientlyEnriched ga p = true := by
    rw [h2]
    exact Bool.false_ne_true
  constructor
  · intro ab c af hf
    constructor
    · intro hsig
      unfold processRecord
      rw [if_neg h1, if_neg h2', hf]
      dsimp only
      rw [if_pos ?hcnd]
      case hcnd =>
        rcases hsig with hab | hc
        · rw [Bool.or_eq_true, bne_iff_ne]
          exact Or.inl hab
        · rw [Bool.or_eq_true]
          exact Or.inr (by rwa [decide_eq_true_eq])
    · intro hab hc
      unfold processRecord
      rw [if_neg h1, if_neg h2', hf]
      dsimp only
      rw [if_neg ?hcnd]
      case hcnd =>
        rw [Bool.or_eq_true, bne_iff_ne]
        rintro (habs | hcs)
        · exact habs hab
        · rw [decide_eq_true_eq] at hcs
          omega
  · intro hf
    unfold processRecord
    rw [if_neg h1, if_neg h2', hf]

/-- An entirely unenriched record. -/
def c4Paper : Paper := ⟨"T", "A", "C", "2020", "", .int 0, "", []⟩

/-- A fetch returning a successful result. -/
def fetchGood : Fetch := fun _ _ _ => .ok "Abs" 5 "Aff"

/-- Witness for C4: an unenriched record with a successful fetch is merged
and classified ENRICHED. -/
theorem c4_nonskipped_merge_or_reset_witness :
    processRecord false false fetchGood c4Paper =
      ({c4Paper with abstract := "Abs", citationCount := .int 5, affiliations := "Aff"},
        .enriched, true) :=
  ((c4_nonskipped_merge_or_reset false false fetchGood c4Paper (by decide) (by decide)).1
    "Abs" 5 "Aff" rfl).1 (Or.inl (by decide))

/-- The fixed output schema of `_save_progress` (line 319). -/
def outputFieldnames : List String :=
  ["title", "authors", "conference", "year", "abstract", "citationCount", "affiliations"]

/-- The row `_save_progress` writes for one record (lines 334-342): exactly
the seven schema cells, with `citationCount` coerced to an integer and
rendered in decimal.  A `DictWriter` over `fieldnames` writes nothing else —
in particular nothing from `extras`. -/
def saveRow (p : Paper) : List String :=
  [p.title, p.authors, p.conference, p.year, p.abstract,
   citCellStr (coerceCit p.citationCount), p.affiliations]

/-- Reading one written row back (`csv.DictReader` over the output file):
every cell is a string and no extra columns exist. -/
def parseRow (r : List String) : Paper :=
  ⟨r.getD 0 "", r.getD 1 "", r.getD 2 "", r.getD 3 "", r.getD 4 "",
   .str (r.getD 5 ""), r.getD 6 "", []⟩

/-- The initialisation pass of `enrich_csv` (lines 386-408): the
`citationCount` cell is coerced to an integer in place (missing enrichment
fields are materialised as their defaults, which the `Paper` structure
already carries). -/
def initPaper (p : Paper) : Paper :=
  {p with citationCount := .int (coerceCit p.citationCount)}

/-- The `has_data` closure (lines 412-422) used to seed the counters. -/
def hasDataB (p : Paper) : Bool :=
  pyStrip p.abstract != "" || decide (0 < coerceCit p.citationCount)

/-- In-memory state of one `enrich_csv` run: the record sequence, the trace
of full flushes written to the output destination (each element one whole
file content, header omitted as constant), and the three counters. -/
structure RunState where
  papers : List Paper
  saves : List (List (List String))
  successCount : Nat
  failedCount : Nat
  skippedCount : Nat
deriving DecidableEq

/-- How a run terminates: normal completion, `KeyboardInterrupt`, or an
unhandled error escaping the per-record boundary. -/
inductive RunExit
  | normal
  | interrupted
  | errored
deriving DecidableEq

/-- `_save_progress` (lines 317-342): rewrite the whole output file from the
entire in-memory record sequence. -/
def saveProgress (st : RunState) : RunState :=
  {st with saves := st.saves ++ [st.papers.map saveRow]}

/-- The checkpoint logic after one processed record (lines 505-517): flush
when the 1-based absolute index is a multiple of 50, and again when it is
the final record of the requested range. -/
def afterProcess (endIdx idx : Nat) (st : RunState) : RunState :=
  let st2 := if (idx + 1) % 50 == 0 then saveProgress st else st
  if idx + 1 == endIdx then saveProgress st2 else st2

/-- One full iteration of the record loop at absolute index `idx`: the skip
branches `continue` without touching papers or saves; a processed record is
written back and the checkpoint logic runs. -/
def stepRecord (ga se : Bool) (fetch : Fetch) (endIdx idx : Nat) (st : RunState) : RunState :=
  match st.papers.get? idx with
  | none => st
  | some p =>
    match processRecord ga se fetch p with
    | (p', out, _) =>
      match out with
      | .skippedAbstract => {st with skippedCount := st.skippedCount + 1}
      | .skippedData => {st with skippedCount := st.skippedCount + 1}
      | .enriched => afterProcess endIdx idx
          {st with papers := st.papers.set idx p', successCount := st.successCount + 1}
      | .failed => afterProcess endIdx idx
          {st with papers := st.papers.set idx p', failedCount := st.failedCount + 1}

/-- External events driving a run: each record either proceeds normally, or
a `KeyboardInterrupt` arrives at its boundary, or an unhandled error (e.g. a
malformed row whose cell is `None`, or an I/O failure in the flush) escapes
the per-record boundary there. -/
inductive RecEvent
  | proceed
  | interrupt
  | crash
deriving DecidableEq

/-- The `for idx in range(start_from, end_idx)` loop (lines 428-519) wrapped
in `try/except KeyboardInterrupt` (line 521): an interrupt stops the loop
(the handler then flushes), while any other exception propagates without a
flush. -/
def runLoop (ga se : Bool) (fetch : Fetch) (script : Nat → RecEvent) (endIdx : Nat) :
    Nat → Nat → RunState → RunState × RunExit
  | 0, _, st => (st, .normal)
  | fuel + 1, idx, st =>
    match script idx with
    | .interrupt => (st, .interrupted)
    | .crash => (st, .errored)
    | .proceed =>
      runLoop ga se fetch script endIdx fuel (idx + 1) (stepRecord ga se fetch endIdx idx st)

/-- How the requested range ends (lines 373-381): a zero `max_papers` is
falsy in Python and means "all". -/
def endIdxOf (startFrom : Nat) (maxPapers : Option Nat) (total : Nat) : Nat :=
  match maxPapers with
  | some m => if m == 0 then total else min (startFrom + m) total
  | none => total

/-- Initial run state: initialised records, no flush yet, counters seeded
from a pre-scan of the `[0, start_from)` prefix (lines 424-426). -/
def initState (startFrom : Nat) (papers0 : List Paper) : RunState :=
  ⟨papers0.map initPaper, [],
   (((papers0.map initPaper).take startFrom).filter hasDataB).length,
   startFrom - (((papers0.map initPaper).take startFrom).filter hasDataB).length, 0⟩

/-- The exit paths of `enrich_csv` after the loop: normal completion flushes
(line 529), the `KeyboardInterrupt` handler flushes (line 523), while any
other exception propagates without a flush (the final `_save_progress` is
skipped and the caller in `run_enrich.py` only prints the traceback). -/
def finishRun : RunState × RunExit → RunState × RunExit
  | (st, .normal) => (saveProgress st, .normal)
  | (st, .interrupted) => (saveProgress st, .interrupted)
  | (st, .errored) => (st, .errored)

/-- `enrich_csv` (lines 344-538): load, initialise, compute the requested
range, seed the counters, run the loop, and finish on the appropriate exit
path. -/
def enrichCsv (ga se : Bool) (fetch : Fetch) (script : Nat → RecEvent)
    (startFrom : Nat) (maxPapers : Option Nat) (papers0 : List Paper) :
    RunState × RunExit :=
  finishRun (runLoop ga se fetch script
    (endIdxOf startFrom maxPapers (papers0.map initPaper).length)
    (endIdxOf startFrom maxPapers (papers0.map initPaper).length - startFrom)
    startFrom (initState startFrom papers0))

/-- The script of a run with no interrupt and no crash. -/
def allProceed : Nat → RecEvent := fun _ => .proceed

/-- A record carrying an extra input column. -/
def c9Paper : Paper := ⟨"T", "A", "C", "2020", "", .int 0, "", [("note", "EXTRA")]⟩

/-- C9 counterexample: the written row for a record with the extra column
`note = "EXTRA"` contains neither the value nor the column name — extra
columns are not preserved in the output. -/
theorem c9_extra_columns_counterexample :
    c9Paper.extras = [("note", "EXTRA")] ∧
    ¬ ("EXTRA" ∈ saveRow c9Paper) ∧
    ¬ ("note" ∈ outputFieldnames) := by
  decide

/-- C9 (amended): extra input columns are dropped, not preserved: every
written row consists of exactly the seven schema cells, and the row is
entirely independent of the record's extra columns (so they influence
nothing in the output). -/
theorem c9_extra_columns_amended (p : Paper) :
    (saveRow p).length = 7 ∧
    saveRow p = saveRow {p with extras := []} ∧
    outputFieldnames.length = 7 := by
  exact ⟨rfl, rfl, rfl⟩

/-- On a normal or interrupted exit, the last flush is a full snapshot of
the final record sequence; an errored exit adds no flush. -/
theorem finishRun_flush (r : RunState × RunExit) :
    ((finishRun r).2 ≠ .errored →
      (finishRun r).1.saves.getLast? = some ((finishRun r).1.papers.map saveRow)) ∧
    ((finishRun r).2 = .errored → finishRun r = r) := by
  rcases r with ⟨st, e⟩
  cases e with
  | normal =>
    refine ⟨fun _ => ?_, fun h => by simp [finishRun] at h⟩
    simp [finishRun, saveProgress, List.getLast?_concat]
  | interrupted =>
    refine ⟨fun _ => ?_, fun h => by simp [finishRun] at h⟩
    simp [finishRun, saveProgress, List.getLast?_concat]
  | errored => exact ⟨fun h => absurd rfl h, fun _ => rfl⟩

/-- A script that crashes at the very first record. -/
def crashScript : Nat → RecEvent := fun _ => .crash

/-- C6 counterexample: an unhandled error escaping the per-record boundary
at the first record terminates the run with an empty flush trace — no
"full flush before termination" happens on that exit path, unlike the claim
states, and the output misses the whole (non-empty) record sequence. -/
theorem c6_flush_counterexample :
    (enrichCsv false false fetchExn crashScript 0 none [c4Paper]).2 = .errored ∧
    (enrichCsv false false fetchExn crashScript 0 none [c4Paper]).1.saves = [] ∧
    (enrichCsv false false fetchExn crashScript 0 none [c4Paper]).1.papers ≠ [] := by
  decide

/-- C6 (amended): (1) on normal completion and on user cancellation a full
flush of the entire record sequence is performed before termination (so its
content is the last flush of the run); (2) a processed (non-skipped) record
flushes the full current sequence when its 1-based absolute index is a
multiple of 50 and again when it is the final record of the range, while a
skipped record triggers no flush; (3) an unhandled error escaping the
per-record boundary stops the loop with the state as it stands — combined
with the counterexample, no flush accompanies that exit, so the at-most-49
uncommitted-records bound holds only for the normal and cancellation
paths. -/
theorem c6_flush_paths_amended :
    (∀ (ga se : Bool) (fetch : Fetch) (script : Nat → RecEvent) (startFrom : Nat)
        (maxPapers : Option Nat) (papers0 : List Paper),
      (enrichCsv ga se fetch script startFrom maxPapers papers0).2 ≠ .errored →
      (enrichCsv ga se fetch script startFrom maxPapers papers0).1.saves.getLast? =
        some ((enrichCsv ga se fetch script startFrom maxPapers papers0).1.papers.map
          saveRow)) ∧
    (∀ (ga se : Bool) (fetch : Fetch) (endIdx idx : Nat) (st : RunState) (p : Paper),
      st.papers.get? idx = some p →
      (((processRecord ga se fetch p).2.1 = .skippedAbstract ∨
        (processRecord ga se fetch p).2.1 = .skippedData) →
        (stepRecord ga se fetch endIdx idx st).saves = st.saves) ∧
      (((processRecord ga se fetch p).2.1 = .enriched ∨
        (processRecord ga se fetch p).2.1 = .failed) →
        (stepRecord ga se fetch endIdx idx st).saves =
          st.saves ++
          (if (idx + 1) % 50 == 0 then
            [(st.papers.set idx (processRecord ga se fetch p).1).map saveRow] else []) ++
          (if idx + 1 == endIdx then
            [(st.papers.set idx (processRecord ga se fetch p).1).map saveRow] else []))) ∧
    (∀ (ga se : Bool) (fetch : Fetch) (script : Nat → RecEvent) (endIdx fuel idx : Nat)
        (st : RunState),
      script idx = .crash →
      runLoop ga se fetch script endIdx (fuel + 1) idx st = (st, .errored)) := by
  refine ⟨?_, ?_, ?_⟩
  · intro ga se fetch script startFrom maxPapers papers0 h
    unfold enrichCsv at h ⊢
    exact (finishRun_flush _).1 h
  · intro ga se fetch endIdx idx st p hp
    unfold stepRecord
    rw [hp]
    dsimp only
    rcases hpr : processRecord ga se fetch p with ⟨p', out, api⟩
    dsimp only
    cases out with
    | skippedAbstract =>
      refine ⟨fun _ => rfl, fun hc => ?_⟩
      rcases hc with hc | hc <;> exact absurd hc (by decide)
    | skippedData =>
      refine ⟨fun _ => rfl, fun hc => ?_⟩
      rcases hc with hc | hc <;> exact absurd hc (by decide)
    | enriched =>
      refine ⟨fun hc => ?_, fun _ => ?_⟩
      · rcases hc with hc | hc <;> exact absurd hc (by decide)
      · unfold afterProcess
        dsimp only
        split_ifs <;> simp [saveProgress, List.append_assoc]
    | failed =>
      refine ⟨fun hc => ?_, fun _ => ?_⟩
      · rcases hc with hc | hc <;> exact absurd hc (by decide)
      · unfold afterProcess
        dsimp only
        split_ifs <;> simp [saveProgress, List.append_assoc]
  · intro ga se fetch script endIdx fuel idx st hscript
    simp only [runLoop, hscript]

/-- Witness for C6: a concrete normal one-record run ends with a full flush
of its final record sequence. -/
theorem c6_flush_paths_amended_witness :
    (enrichCsv false false fetchGood allProceed 0 none [c4Paper]).1.saves.getLast? =
      some ((enrichCsv false false fetchGood allProceed 0 none [c4Paper]).1.papers.map
        saveRow) :=
  c6_flush_paths_amended.1 false false fetchGood allProceed 0 none [c4Paper] (by decide)

/-- `processRecord` never touches the identity fields of a record. -/
theorem processRecord_fixed (ga se : Bool) (fetch : Fetch) (p : Paper) :
    ((processRecord ga se fetch p).1).title = p.title ∧
    ((processRecord ga se fetch p).1).authors = p.authors ∧
    ((processRecord ga se fetch p).1).conference = p.conference ∧
    ((processRecord ga se fetch p).1).year = p.year ∧
    ((processRecord ga se fetch p).1).extras = p.extras := by
  unfold processRecord resetPaper
  split
  · exact ⟨rfl, rfl, rfl, rfl, rfl⟩
  · split
    · exact ⟨rfl, rfl, rfl, rfl, rfl⟩
    · cases fetch (pyStrip p.title) (pyStrip p.authors) (parseYear (pyStrip p.year)) with
      | ok ab c af =>
        dsimp only
        split
        · exact ⟨rfl, rfl, rfl, rfl, rfl⟩
        · exact ⟨rfl, rfl, rfl, rfl, rfl⟩
      | exn => exact ⟨rfl, rfl, rfl, rfl, rfl⟩

theorem list_set_get? {α : Type} :
    ∀ (l : List α) (n : Nat) (a : α), l.get? n = some a → l.set n a = l := by
  intro l
  induction l with
  | nil => intro n a h; simp at h
  | cons x t ih =>
    intro n a h
    cases n with
    | zero =>
      simp only [List.get?_cons_zero, Option.some.injEq] at h
      rw [List.set_cons_zero, h]
    | succ m =>
      simp only [List.get?_cons_succ] at h
      rw [List.set_cons_succ, ih m a h]

/-- The inductive alignment invariant for C10: the in-memory sequence keeps
its length and titles, and every flush taken so far holds one row per input
record, title-aligned in input order. -/
def invAligned (N : Nat) (T : List String) (st : RunState) : Prop :=
  st.papers.length = N ∧ st.papers.map Paper.title = T ∧
  ∀ s ∈ st.saves, s.length = N ∧ s.map (fun r => r.getD 0 "") = T

theorem saveProgress_invAligned {N : Nat} {T : List String} {st : RunState}
    (h : invAligned N T st) : invAligned N T (saveProgress st) := by
  obtain ⟨hl, ht, hs⟩ := h
  refine ⟨hl, ht, ?_⟩
  intro s hmem
  simp only [saveProgress, List.mem_append, List.mem_singleton] at hmem
  rcases hmem with hmem | hmem
  · exact hs s hmem
  · subst hmem
    constructor
    · rw [List.length_map]
      exact hl
    · rw [List.map_map]
      have : (fun r => List.getD r 0 "") ∘ saveRow = Paper.title := funext fun p => rfl
      rw [this]
      exact ht

theorem afterProcess_invAligned {N : Nat} {T : List String} (endIdx idx : Nat)
    {st : RunState} (h : invAligned N T st) : invAligned N T (afterProcess endIdx idx st) := by
  unfold afterProcess
  dsimp only
  split_ifs <;> first
    | exact saveProgress_invAligned (saveProgress_invAligned h)
    | exact saveProgress_invAligned h
    | exact h

theorem stepRecord_invAligned {N : Nat} {T : List String} (ga se : Bool) (fetch : Fetch)
    (endIdx idx : Nat) {st : RunState} (h : invAligned N T st) :
    invAligned N T (stepRecord ga se fetch endIdx idx st) := by
  unfold stepRecord
  cases hp : st.papers.get? idx with
  | none => exact h
  | some p =>
    dsimp only
    rcases hpr : processRecord ga se fetch p with ⟨p', out, api⟩
    dsimp only
    have hset : invAligned N T
        {st with papers := st.papers.set idx p'} := by
      obtain ⟨hl, ht, hs⟩ := h
      have htitle : p'.title = p.title := by
        have := (processRecord_fixed ga se fetch p).1
        rw [hpr] at this
        exact this
      refine ⟨?_, ?_, hs⟩
      · rw [List.length_set]
        exact hl
      · rw [List.map_set, htitle]
        have hgm : (st.papers.map Paper.title).get? idx = some p.title := by
          rw [List.get?_map, hp]
          rfl
        rw [list_set_get? _ _ _ hgm]
        exact ht
    cases out with
    | skippedAbstract => exact ⟨h.1, h.2.1, h.2.2⟩
    | skippedData => exact ⟨h.1, h.2.1, h.2.2⟩
    | enriched => exact afterProcess_invAligned endIdx idx ⟨hset.1, hset.2.1, hset.2.2⟩
    | failed => exact afterProcess_invAligned endIdx idx ⟨hset.1, hset.2.1, hset.2.2⟩

theorem runLoop_invAligned {N : Nat} {T : List String} (ga se : Bool) (fetch : Fetch)
    (script : Nat → RecEvent) (endIdx : Nat) :
    ∀ (fuel idx : Nat) (st : RunState), invAligned N T st →
      invAligned N T (runLoop ga se fetch script endIdx fuel idx st).1 := by
  intro fuel
  induction fuel with
  | zero => intro idx st h; exact h
  | succ f ih =>
    intro idx st h
    simp only [runLoop]
    cases script idx with
    | interrupt => exact h
    | crash => exact h
    | proceed => exact ih (idx + 1) _ (stepRecord_invAligned ga se fetch endIdx idx h)

/-- C10: every progress flush ever taken by a run — periodic, final-record,
end-of-run or interrupt — writes the entire in-memory record sequence:
exactly one output row per input record, title-aligned with the input order,
regardless of `start_from` and `max_papers`.  A partial-range run therefore
persists all records, including those outside the processed range. -/
theorem c10_flush_whole_sequence (ga se : Bool) (fetch : Fetch) (script : Nat → RecEvent)
    (startFrom : Nat) (maxPapers : Option Nat) (papers0 : List Paper) :
    ∀ s ∈ (enrichCsv ga se fetch script startFrom maxPapers papers0).1.saves,
      s.length = papers0.length ∧
      s.map (fun r => r.getD 0 "") = papers0.map Paper.title := by
  have hinit : invAligned papers0.length (papers0.map Paper.title)
      (initState startFrom papers0) := by
    refine ⟨?_, ?_, ?_⟩
    · exact List.length_map papers0 initPaper
    · show List.map Paper.title (papers0.map initPaper) = List.map Paper.title papers0
      rw [List.map_map]
      have : Paper.title ∘ initPaper = Paper.title := funext fun p => rfl
      rw [this]
    · intro s hs
      simp [initState] at hs
  have hloop := runLoop_invAligned ga se fetch script
    (endIdxOf startFrom maxPapers (papers0.map initPaper).length)
    (endIdxOf startFrom maxPapers (papers0.map initPaper).length - startFrom)
    startFrom (initState startFrom papers0) hinit
  have hfin : invAligned papers0.length (papers0.map Paper.title)
      (enrichCsv ga se fetch script startFrom maxPapers papers0).1 := by
    unfold enrichCsv finishRun
    rcases hr : runLoop ga se fetch script
        (endIdxOf startFrom maxPapers (papers0.map initPaper).length)
        (endIdxOf startFrom maxPapers (papers0.map initPaper).length - startFrom)
        startFrom (initState startFrom papers0) with ⟨st, e⟩
    rw [hr] at hloop
    cases e with
    | normal => exact saveProgress_invAligned hloop
    | interrupted => exact saveProgress_invAligned hloop
    | errored => exact hloop
  exact hfin.2.2

/-- Witness for C10: the flush of a concrete one-record run has exactly one
row. -/
theorem c10_flush_whole_sequence_witness :
    ((enrichCsv false false fetchGood allProceed 0 none [c4Paper]).1.saves.getD 0 []).length
      = 1 := by
  have h := c10_flush_whole_sequence false false fetchGood allProceed 0 none [c4Paper]
    ((enrichCsv false false fetchGood allProceed 0 none [c4Paper]).1.saves.getD 0 [])
    (by decide)
  exact h.1.trans rfl

-- Idempotence machinery (C8) -------------------------------------------------

/-- What a record looks like after being written to the output file, read
back by a second run, and passed through the initialisation pass. -/
def reloadPaper (p : Paper) : Paper := initPaper (parseRow (saveRow p))

theorem reload_eq (p : Paper) :
    reloadPaper p =
      {p with citationCount := CellVal.int (coerceCit p.citationCount), extras := []} := by
  unfold reloadPaper initPaper parseRow saveRow
  simp only [List.getD_cons_zero, List.getD_cons_succ]
  rw [coerceCit_citCellStr]

theorem suff_reload (ga : Bool) (p : Paper) :
    sufficientlyEnriched ga (reloadPaper p) = sufficientlyEnriched ga p := by
  rw [reload_eq]
  unfold sufficientlyEnriched
  rfl

theorem saveRow_reload (p : Paper) : saveRow (reloadPaper p) = saveRow p := by
  rw [reload_eq]
  unfold saveRow
  rfl

/-- The record written for any processed or skipped record is stable: after
a round trip through the output file and the initialisation pass, running
the per-record logic again (with the same deterministic fetch) leaves it
unchanged. -/
theorem processRecord_reload_fix (ga se : Bool) (fetch : Fetch) (p : Paper) :
    (processRecord ga se fetch (reloadPaper ((processRecord ga se fetch p).1))).1 =
      reloadPaper ((processRecord ga se fetch p).1) := by
  by_cases h1 : (se && (pyStrip p.abstract != "")) = true
  · have hq : (processRecord ga se fetch p).1 = p := by
      unfold processRecord
      rw [if_pos h1]
    rw [hq]
    have ka : (se && (pyStrip (reloadPaper p).abstract != "")) = true := by
      rw [reload_eq]
      exact h1
    unfold processRecord
    rw [if_pos ka]
  · by_cases h2 : sufficientlyEnriched ga p = true
    · have hq : (processRecord ga se fetch p).1 = p := by
        unfold processRecord
        rw [if_neg h1, if_pos h2]
      rw [hq]
      by_cases k1 : (se && (pyStrip (reloadPaper p).abstract != "")) = true
      · unfold processRecord
        rw [if_pos k1]
      · have k2 : sufficientlyEnriched ga (reloadPaper p) = true := by
          rw [suff_reload]
          exact h2
        unfold processRecord
        rw [if_neg k1, if_pos k2]
    · cases hf : fetch (pyStrip p.title) (pyStrip p.authors) (parseYear (pyStrip p.year)) with
      | ok ab c af =>
        by_cases h3 : (ab != "" || decide (0 < c)) = true
        · have hq : (processRecord ga se fetch p).1 =
              {p with abstract := ab, citationCount := CellVal.int c, affiliations := af} := by
            unfold processRecord
            rw [if_neg h1, if_neg h2, hf]
            dsimp only
            rw [if_pos h3]
          rw [hq, reload_eq]
          dsimp only [coerceCit]
          unfold processRecord
          dsimp only
          by_cases k1 : (se && (pyStrip ab != "")) = true
          · rw [if_pos k1]
          · rw [if_neg k1]
            by_cases k2 : sufficientlyEnriched ga
                ⟨p.title, p.authors, p.conference, p.year, ab, CellVal.int c, af, []⟩ = true
            · rw [if_pos k2]
            · rw [if_neg k2, hf]
              dsimp only
              rw [if_pos h3]
        · have hq : (processRecord ga se fetch p).1 = resetPaper p := by
            unfold processRecord
            rw [if_neg h1, if_neg h2, hf]
            dsimp only
            rw [if_neg h3]
          rw [hq, reload_eq]
          unfold resetPaper
          dsimp only [coerceCit]
          have hempty : (pyStrip "" != "") = false := by decide
          have k1 : ¬ ((se && (pyStrip "" != "")) = true) := by
            rw [hempty]
            simp
          have k2 : ¬ (sufficientlyEnriched ga
              ⟨p.title, p.authors, p.conference, p.year, "", CellVal.int 0, "", []⟩ = true) := by
            unfold sufficientlyEnriched
            dsimp only [coerceCit]
            rw [hempty, show decide ((0 : Int) < 0) = false from by decide]
            simp
          unfold processRecord
          dsimp only
          rw [if_neg k1, if_neg k2, hf]
          dsimp only
          rw [if_neg h3]
          unfold resetPaper
          rfl
      | exn =>
        have hq : (processRecord ga se fetch p).1 = resetPaper p := by
          unfold processRecord
          rw [if_neg h1, if_neg h2, hf]
        rw [hq, reload_eq]
        unfold resetPaper
        dsimp only [coerceCit]
        have hempty : (pyStrip "" != "") = false := by decide
        have k1 : ¬ ((se && (pyStrip "" != "")) = true) := by
          rw [hempty]
          simp
        have k2 : ¬ (sufficientlyEnriched ga
            ⟨p.title, p.authors, p.conference, p.year, "", CellVal.int 0, "", []⟩ = true) := by
          unfold sufficientlyEnriched
          dsimp only [coerceCit]
          rw [hempty, show decide ((0 : Int) < 0) = false from by decide]
          simp
        unfold processRecord
        dsimp only
        rw [if_neg k1, if_neg k2, hf]
        dsimp only
        unfold resetPaper
        rfl

theorem processRecord_skip_eq (ga se : Bool) (fetch : Fetch) (p : Paper) :
    ∀ p' out api, processRecord ga se fetch p = (p', out, api) →
      out = Outcome.skippedAbstract ∨ out = Outcome.skippedData → p' = p := by
  intro p' out api h hout
  unfold processRecord at h
  by_cases h1 : (se && (pyStrip p.abstract != "")) = true
  · rw [if_pos h1] at h
    injection h with ha hb
    exact ha.symm
  · rw [if_neg h1] at h
    by_cases h2 : sufficientlyEnriched ga p = true
    · rw [if_pos h2] at h
      injection h with ha hb
      exact ha.symm
    · rw [if_neg h2] at h
      cases hf : fetch (pyStrip p.title) (pyStrip p.authors) (parseYear (pyStrip p.year)) with
      | ok ab c af =>
        rw [hf] at h
        dsimp only at h
        split at h <;>
          · injection h with ha hb
            injection hb with hb1 hb2
            subst hb1
            rcases hout with hc | hc <;> exact absurd hc (by decide)
      | exn =>
        rw [hf] at h
        injection h with ha hb
        injection hb with hb1 hb2
        subst hb1
        rcases hout with hc | hc <;> exact absurd hc (by decide)

theorem afterProcess_papers (endIdx idx : Nat) (st : RunState) :
    (afterProcess endIdx idx st).papers = st.papers := by
  unfold afterProcess
  dsimp only
  split_ifs <;> rfl

theorem list_get?_set_self {α : Type} :
    ∀ (l : List α) (n : Nat) (a : α), n < l.length → (l.set n a).get? n = some a := by
  intro l
  induction l with
  | nil => intro n a h; simp at h
  | cons x t ih =>
    intro n a h
    cases n with
    | zero => rfl
    | succ m =>
      rw [List.set_cons_succ, List.get?_cons_succ]
      exact ih m a (by simpa using h)

theorem list_get?_set_other {α : Type} :
    ∀ (l : List α) (n j : Nat) (a : α), n ≠ j → (l.set n a).get? j = l.get? j := by
  intro l
  induction l with
  | nil => intro n j a h; rfl
  | cons x t ih =>
    intro n j a h
    cases n with
    | zero =>
      cases j with
      | zero => exact absurd rfl h
      | succ m => rfl
    | succ m =>
      cases j with
      | zero => rfl
      | succ k =>
        rw [List.set_cons_succ, List.get?_cons_succ, List.get?_cons_succ]
        exact ih m k a (fun hc => h (by rw [hc]))

/-- How one loop iteration acts on the record sequence. -/
theorem stepRecord_get (ga se : Bool) (fetch : Fetch) (endIdx idx : Nat) (st : RunState) :
    (stepRecord ga se fetch endIdx idx st).papers.length = st.papers.length ∧
    (∀ j, j ≠ idx →
      (stepRecord ga se fetch endIdx idx st).papers.get? j = st.papers.get? j) ∧
    (∀ p, st.papers.get? idx = some p →
      (stepRecord ga se fetch endIdx idx st).papers.get? idx =
        some ((processRecord ga se fetch p).1)) := by
  unfold stepRecord
  cases hp : st.papers.get? idx with
  | none =>
    exact ⟨rfl, fun j _ => rfl, fun p hp' => Option.noConfusion hp'⟩
  | some p =>
    dsimp only
    rcases hpr : processRecord ga se fetch p with ⟨p', out, api⟩
    dsimp only
    have hidx : idx < st.papers.length := by
      by_contra hge
      rw [List.get?_eq_none.mpr (by omega)] at hp
      exact Option.noConfusion hp
    cases out with
    | skippedAbstract =>
      refine ⟨rfl, fun j _ => rfl, fun q hq => ?_⟩
      injection hq with hq
      subst hq
      show st.papers.get? idx = some (processRecord ga se fetch p).1
      rw [hp, hpr]
      dsimp only
      rw [processRecord_skip_eq ga se fetch p p' Outcome.skippedAbstract api hpr (Or.inl rfl)]
    | skippedData =>
      refine ⟨rfl, fun j _ => rfl, fun q hq => ?_⟩
      injection hq with hq
      subst hq
      show st.papers.get? idx = some (processRecord ga se fetch p).1
      rw [hp, hpr]
      dsimp only
      rw [processRecord_skip_eq ga se fetch p p' Outcome.skippedData api hpr (Or.inr rfl)]
    | enriched =>
      rw [afterProcess_papers]
      dsimp only
      refine ⟨by rw [List.length_set],
        fun j hj => list_get?_set_other _ _ _ _ (fun hc => hj hc.symm),
        fun q hq => ?_⟩
      injection hq with hq
      subst hq
      rw [list_get?_set_self _ _ _ hidx, hpr]
    | failed =>
      rw [afterProcess_papers]
      dsimp only
      refine ⟨by rw [List.length_set],
        fun j hj => list_get?_set_other _ _ _ _ (fun hc => hj hc.symm),
        fun q hq => ?_⟩
      injection hq with hq
      subst hq
      rw [list_get?_set_self _ _ _ hidx, hpr]

theorem stepRecord_none (ga se : Bool) (fetch : Fetch) (endIdx idx : Nat) (st : RunState)
    (h : st.papers.get? idx = none) : stepRecord ga se fetch endIdx idx st = st := by
  unfold stepRecord
  rw [h]

/-- A crash-free, interrupt-free loop ends normally, preserves the length of
the record sequence, leaves records outside the processed window untouched,
and leaves every record inside the window in a reload-stable state. -/
theorem runLoop_proceed_window (ga se : Bool) (fetch : Fetch) (endIdx : Nat) :
    ∀ (fuel idx : Nat) (st : RunState),
      (runLoop ga se fetch allProceed endIdx fuel idx st).2 = RunExit.normal ∧
      (runLoop ga se fetch allProceed endIdx fuel idx st).1.papers.length =
        st.papers.length ∧
      (∀ j, j < idx ∨ idx + fuel ≤ j →
        (runLoop ga se fetch allProceed endIdx fuel idx st).1.papers.get? j =
          st.papers.get? j) ∧
      (∀ j, idx ≤ j → j < idx + fuel →
        ∀ q, (runLoop ga se fetch allProceed endIdx fuel idx st).1.papers.get? j = some q →
          (processRecord ga se fetch (reloadPaper q)).1 = reloadPaper q) := by
  intro fuel
  induction fuel with
  | zero =>
    intro idx st
    refine ⟨rfl, rfl, fun j _ => rfl, fun j hj1 hj2 q _ => ?_⟩
    omega
  | succ f ih =>
    intro idx st
    simp only [runLoop, allProceed]
    obtain ⟨ihe, ihl, ihout, ihfix⟩ := ih (idx + 1) (stepRecord ga se fetch endIdx idx st)
    obtain ⟨hsl, hsout, hsin⟩ := stepRecord_get ga se fetch endIdx idx st
    refine ⟨ihe, ihl.trans hsl, ?_, ?_⟩
    · intro j hj
      have hjne : j ≠ idx := by omega
      have hj' : j < idx + 1 ∨ (idx + 1) + f ≤ j := by omega
      rw [ihout j hj', hsout j hjne]
    · intro j hj1 hj2 q hq
      by_cases hji : j = idx
      · subst hji
        rw [ihout j (Or.inl (by omega))] at hq
        cases hpp : st.papers.get? j with
        | none =>
          rw [stepRecord_none ga se fetch endIdx j st hpp, hpp] at hq
          exact Option.noConfusion hq
        | some w =>
          rw [hsin w hpp] at hq
          injection hq with hq
          subst hq
          exact processRecord_reload_fix ga se fetch w
      · exact ihfix j (by omega) (by omega) q hq

theorem stepRecord_papers_fix (ga se : Bool) (fetch : Fetch) (endIdx idx : Nat) (st : RunState)
    (h : ∀ q, st.papers.get? idx = some q → (processRecord ga se fetch q).1 = q) :
    (stepRecord ga se fetch endIdx idx st).papers = st.papers := by
  unfold stepRecord
  cases hp : st.papers.get? idx with
  | none => rfl
  | some q =>
    dsimp only
    rcases hpr : processRecord ga se fetch q with ⟨p', out, api⟩
    dsimp only
    have hpq : p' = q := by
      have hh := h q hp
      rw [hpr] at hh
      exact hh
    cases out with
    | skippedAbstract => rfl
    | skippedData => rfl
    | enriched =>
      rw [afterProcess_papers]
      dsimp only
      rw [hpq]
      exact list_set_get? _ _ _ hp
    | failed =>
      rw [afterProcess_papers]
      dsimp only
      rw [hpq]
      exact list_set_get? _ _ _ hp

/-- A second pass over records that are all fixed points of the per-record
logic changes nothing. -/
theorem runLoop_fix_papers (ga se : Bool) (fetch : Fetch) (endIdx : Nat) :
    ∀ (fuel idx : Nat) (st : RunState),
      (∀ j q, idx ≤ j → j < idx + fuel → st.papers.get? j = some q →
        (processRecord ga se fetch q).1 = q) →
      (runLoop ga se fetch allProceed endIdx fuel idx st).1.papers = st.papers := by
  intro fuel
  induction fuel with
  | zero => intro idx st _; rfl
  | succ f ih =>
    intro idx st h
    simp only [runLoop, allProceed]
    have hstep : (stepRecord ga se fetch endIdx idx st).papers = st.papers :=
      stepRecord_papers_fix ga se fetch endIdx idx st
        (fun q hq => h idx q (le_refl idx) (by omega) hq)
    have hrec := ih (idx + 1) (stepRecord ga se fetch endIdx idx st)
      (fun j q hj1 hj2 hq => h j q (by omega) (by omega) (by rw [hstep] at hq; exact hq))
    rw [hrec, hstep]

/-- C8: with the external API modelled as an unchanged deterministic
function, a crash-free run completes normally and its output is its last
flush; running the engine a second time over that output (written rows read
back and re-initialised) again completes normally and produces the
byte-identical output (the same row list); and every sufficiently-enriched
record is skipped by the per-record logic without entering the API path. -/
theorem c8_idempotence (ga se : Bool) (fetch : Fetch) (startFrom : Nat)
    (maxPapers : Option Nat) (papers0 : List Paper) :
    (enrichCsv ga se fetch allProceed startFrom maxPapers papers0).2 = RunExit.normal ∧
    (enrichCsv ga se fetch allProceed startFrom maxPapers papers0).1.saves.getLast? =
      some ((enrichCsv ga se fetch allProceed startFrom maxPapers papers0).1.papers.map
        saveRow) ∧
    (enrichCsv ga se fetch allProceed startFrom maxPapers
        (((enrichCsv ga se fetch allProceed startFrom maxPapers papers0).1.papers.map
            saveRow).map parseRow)).2 = RunExit.normal ∧
    (enrichCsv ga se fetch allProceed startFrom maxPapers
        (((enrichCsv ga se fetch allProceed startFrom maxPapers papers0).1.papers.map
            saveRow).map parseRow)).1.saves.getLast? =
      some ((enrichCsv ga se fetch allProceed startFrom maxPapers papers0).1.papers.map
        saveRow) ∧
    (∀ q : Paper, sufficientlyEnriched ga q = true →
      ((processRecord ga se fetch q).2.1 = Outcome.skippedAbstract ∨
       (processRecord ga se fetch q).2.1 = Outcome.skippedData) ∧
      (processRecord ga se fetch q).2.2 = false) := by
  have hskip : ∀ q : Paper, sufficientlyEnriched ga q = true →
      ((processRecord ga se fetch q).2.1 = Outcome.skippedAbstract ∨
       (processRecord ga se fetch q).2.1 = Outcome.skippedData) ∧
      (processRecord ga se fetch q).2.2 = false := by
    intro q hsuf
    unfold processRecord
    by_cases k1 : (se && (pyStrip q.abstract != "")) = true
    · rw [if_pos k1]
      exact ⟨Or.inl rfl, rfl⟩
    · rw [if_neg k1, if_pos hsuf]
      exact ⟨Or.inr rfl, rfl⟩
  rcases hr1 : runLoop ga se fetch allProceed
      (endIdxOf startFrom maxPapers (papers0.map initPaper).length)
      (endIdxOf startFrom maxPapers (papers0.map initPaper).length - startFrom)
      startFrom (initState startFrom papers0) with ⟨st1, e1⟩
  have R1 := runLoop_proceed_window ga se fetch
      (endIdxOf startFrom maxPapers (papers0.map initPaper).length)
      (endIdxOf startFrom maxPapers (papers0.map initPaper).length - startFrom)
      startFrom (initState startFrom papers0)
  rw [hr1] at R1
  obtain ⟨he1, hl1, hout1, hfix1⟩ := R1
  dsimp only at he1 hl1 hout1 hfix1
  subst he1
  have h1eq : enrichCsv ga se fetch allProceed startFrom maxPapers papers0 =
      (saveProgress st1, RunExit.normal) := by
    unfold enrichCsv
    rw [hr1]
    rfl
  have hrows1 : (enrichCsv ga se fetch allProceed startFrom maxPapers papers0).1.papers =
      st1.papers := by
    rw [h1eq]
    rfl
  have hmap2 : ((st1.papers.map saveRow).map parseRow).map initPaper =
      st1.papers.map reloadPaper := by
    rw [List.map_map, List.map_map]
    rfl
  have hlen_st1 : st1.papers.length = papers0.length := by
    rw [hl1]
    show (papers0.map initPaper).length = papers0.length
    exact List.length_map papers0 initPaper
  have htot : ((((st1.papers.map saveRow).map parseRow)).map initPaper).length =
      (papers0.map initPaper).length := by
    rw [List.length_map, List.length_map, List.length_map, List.length_map, hlen_st1]
  have hst02 : (initState startFrom ((st1.papers.map saveRow).map parseRow)).papers =
      st1.papers.map reloadPaper := by
    show (((st1.papers.map saveRow).map parseRow)).map initPaper = _
    exact hmap2
  rcases hr2 : runLoop ga se fetch allProceed
      (endIdxOf startFrom maxPapers
        ((((st1.papers.map saveRow).map parseRow)).map initPaper).length)
      (endIdxOf startFrom maxPapers
        ((((st1.papers.map saveRow).map parseRow)).map initPaper).length - startFrom)
      startFrom (initState startFrom ((st1.papers.map saveRow).map parseRow)) with ⟨st2, e2⟩
  have R2w := runLoop_proceed_window ga se fetch
      (endIdxOf startFrom maxPapers
        ((((st1.papers.map saveRow).map parseRow)).map initPaper).length)
      (endIdxOf startFrom maxPapers
        ((((st1.papers.map saveRow).map parseRow)).map initPaper).length - startFrom)
      startFrom (initState startFrom ((st1.papers.map saveRow).map parseRow))
  rw [hr2] at R2w
  obtain ⟨he2, _, _, _⟩ := R2w
  dsimp only at he2
  subst he2
  have h2eq : enrichCsv ga se fetch allProceed startFrom maxPapers
      ((st1.papers.map saveRow).map parseRow) = (saveProgress st2, RunExit.normal) := by
    unfold enrichCsv
    rw [hr2]
    rfl
  have hfixall : ∀ j q, startFrom ≤ j →
      j < startFrom + (endIdxOf startFrom maxPapers
        ((((st1.papers.map saveRow).map parseRow)).map initPaper).length - startFrom) →
      (initState startFrom ((st1.papers.map saveRow).map parseRow)).papers.get? j = some q →
      (processRecord ga se fetch q).1 = q := by
    intro j q hj1 hj2 hq
    rw [hst02, List.get?_map] at hq
    cases hw : st1.papers.get? j with
    | none =>
      rw [hw] at hq
      exact Option.noConfusion hq
    | some w =>
      rw [hw] at hq
      injection hq with hq
      subst hq
      rw [htot] at hj2
      exact hfix1 j hj1 hj2 w hw
  have hst2papers : st2.papers = st1.papers.map reloadPaper := by
    have hfp := runLoop_fix_papers ga se fetch
      (endIdxOf startFrom maxPapers
        ((((st1.papers.map saveRow).map parseRow)).map initPaper).length)
      (endIdxOf startFrom maxPapers
        ((((st1.papers.map saveRow).map parseRow)).map initPaper).length - startFrom)
      startFrom (initState startFrom ((st1.papers.map saveRow).map parseRow)) hfixall
    rw [hr2] at hfp
    dsimp only at hfp
    rw [hfp, hst02]
  have hcomp : saveRow ∘ reloadPaper = saveRow := funext saveRow_reload
  refine ⟨by rw [h1eq], ?_, ?_, ?_, hskip⟩
  · rw [h1eq]
    show (saveProgress st1).saves.getLast? = some ((saveProgress st1).papers.map saveRow)
    simp [saveProgress, List.getLast?_concat]
  · rw [hrows1, h2eq]
  · rw [hrows1, h2eq]
    show (saveProgress st2).saves.getLast? = some (st1.papers.map saveRow)
    have : (saveProgress st2).saves.getLast? = some (st2.papers.map saveRow) := by
      simp [saveProgress, List.getLast?_concat]
    rw [this, hst2papers, List.map_map, hcomp]

/-- Witness for C8: a concrete sufficiently-enriched record is skipped by
the per-record logic without entering the API path. -/
theorem c8_idempotence_witness :
    ((processRecord true false fetchGood c1DonePaper).2.1 = Outcome.skippedAbstract ∨
     (processRecord true false fetchGood c1DonePaper).2.1 = Outcome.skippedData) ∧
    (processRecord true false fetchGood c1DonePaper).2.2 = false :=
  (c8_idempotence true false fetchGood 0 none []).2.2.2.2 c1DonePaper (by decide)
